import Mathlib

/-
  Verification development for `src/Working/ExtractComment.py` of the
  CommentAnalysis repository.

  Shallow embedding conventions:
  * A file system is modelled by `FS`: `real` is `os.path.realpath`
    (a total function on paths) and `content p` is the byte content of
    the file at path `p` (`none` when the file is inaccessible, which
    is exactly the situation in which `os.path.getsize`, `open` and
    reads raise `OSError`).
  * Bytes and decoded code points are `Nat`s (Python text strings may
    contain lone surrogates such as U+DC80, which `Char` cannot hold).
  * `hashlib.sha1` digests are idealised as injective, i.e. the digest
    of a byte string is the byte string itself: the digest of the first
    1024 bytes is `c.take 1024`, the full digest is `c`.  (The spec
    says collision resistance "determines correctness of dedup".)
  * Python `dict`s (insertion ordered) are association lists; keys are
    unique by construction.  The code's `if duplicate:` test on a
    looked-up value is truthiness: for the two list-valued dicts the
    stored lists are never empty, so truthiness coincides with key
    presence and `dictApp` models the lookup-append-or-create pattern
    exactly; for the string-valued dict `hashes_full` the literal
    truthiness test (`None` and `""` are falsy) is kept.
  * `open(path, 'r')` is modelled as strict UTF-8 decoding (the assumed
    locale encoding) plus universal-newline translation; the fallback
    `open(path, 'r', encoding="ascii", errors="surrogateescape")` maps
    every byte `b < 128` to itself and every other byte to `0xDC00 + b`,
    again followed by newline translation.
  * `re.finditer(r'/\*.*?\*/', src, DOTALL)` and
    `re.finditer(r'//.*?$', src, MULTILINE)` are modelled by the
    left-to-right, non-overlapping scanners `blockComments` and
    `lineComments`: a block match starts at a `/*` and ends at the
    nearest `*/` starting at least two positions later; a line match
    starts at a `//` and extends up to the next `'\n'` (code 10)
    exclusive; scanning resumes at the end of each match.
-/

namespace CommentAnalysis

abbrev Bytes := List Nat

/-- A file system: `real` models `os.path.realpath`, `content` gives the
raw byte content of the file at a path (`none` = inaccessible). -/
structure FS where
  real : String → String
  content : String → Option Bytes

/-- Content reachable from an input path: `realpath` then read. -/
def readC (fs : FS) (p : String) : Option Bytes :=
  fs.content (fs.real p)

/-- Python-dict (insertion ordered) append of `x` to the list stored at
key `k`, creating the entry at the end when the key is absent.  This is
the `duplicate = d.get(k); if duplicate: ... else: d[k] = []; d[k].append(x)`
pattern of `remove_duplicates`. -/
def dictApp {κ α : Type} [DecidableEq κ] (k : κ) (x : α) :
    List (κ × List α) → List (κ × List α)
  | [] => [(k, [x])]
  | (k', xs) :: d => if k = k' then (k', xs ++ [x]) :: d else (k', xs) :: dictApp k x d

/-- Lookup in a list-valued Python dict, `[]` when absent. -/
def lookupD {κ α : Type} [DecidableEq κ] (k : κ) : List (κ × List α) → List α
  | [] => []
  | (k', xs) :: d => if k = k' then xs else lookupD k d

/-- `d[k] = v` on a Python dict (update in place, insert at the end). -/
def dictSet {κ α : Type} [DecidableEq κ] (k : κ) (v : α) :
    List (κ × α) → List (κ × α)
  | [] => [(k, v)]
  | (k', v') :: d => if k = k' then (k, v) :: d else (k', v') :: dictSet k v d

/-- `d.get(k)` on a Python dict. -/
def lookup1 {κ α : Type} [DecidableEq κ] (k : κ) : List (κ × α) → Option α
  | [] => none
  | (k', v) :: d => if k = k' then some v else lookup1 k d

/-- One step of the first loop of `remove_duplicates` (lines 70-85):
realpath + getsize, dropping the path on `OSError`, then grouping the
realpath under its size. -/
def sizeStep (fs : FS) (d : List (Nat × List String)) (p : String) :
    List (Nat × List String) :=
  match readC fs p with
  | none => d
  | some c => dictApp c.length (fs.real p) d

/-- One step of the inner loop at lines 94-106: hash of the first 1024
bytes (idealised as `c.take 1024`), dropping the file on `OSError`. -/
def hashStep (fs : FS) (d : List (Bytes × List String)) (q : String) :
    List (Bytes × List String) :=
  match fs.content q with
  | none => d
  | some c => dictApp (c.take 1024) q d

/-- One step of the loop over `hashes_by_size.items()` (lines 89-106):
size-unique groups go straight to the result, the rest are hashed on
their first 1024 bytes into the shared dict `hashes_on_1k`. -/
def tier2Step (fs : FS) (acc : List String × List (Bytes × List String))
    (g : Nat × List String) : List String × List (Bytes × List String) :=
  if g.2.length < 2 then (acc.1 ++ g.2, acc.2)
  else (acc.1, g.2.foldl (hashStep fs) acc.2)

/-- The body of the innermost loop at lines 115-125: full hash
(idealised as the whole content), then `duplicate = hashes_full.get(h);
if not duplicate: hashes_full[h] = filename; result.append(filename)`.
`if not duplicate` is Python truthiness: `None` and `""` are falsy. -/
def tier3Inner (fs : FS) (acc : List String × List (Bytes × String))
    (q : String) : List String × List (Bytes × String) :=
  match fs.content q with
  | none => acc
  | some c =>
    match lookup1 c acc.2 with
    | some s => if s = "" then (acc.1 ++ [q], dictSet c q acc.2) else acc
    | none => (acc.1 ++ [q], dictSet c q acc.2)

/-- One step of the loop over `hashes_on_1k.items()` (lines 110-127). -/
def tier3Step (fs : FS) (acc : List String × List (Bytes × String))
    (g : Bytes × List String) : List String × List (Bytes × String) :=
  if g.2.length < 2 then (acc.1 ++ g.2, acc.2)
  else g.2.foldl (tier3Inner fs) acc

/-- `remove_duplicates` (lines 61-127): the three-tier content
deduplication returning the surviving (realpath) file list. -/
def remove_duplicates (fs : FS) (filelist : List String) : List String :=
  let hashes_by_size := filelist.foldl (sizeStep fs) []
  let t2 := hashes_by_size.foldl (tier2Step fs) ([], [])
  let t3 := t2.2.foldl (tier3Step fs) (t2.1, [])
  t3.1

/-- The realpaths of the accessible input files, in input order.  This
is the sub-list of the input that tier 1 does not drop. -/
def resolved (fs : FS) (l : List String) : List String :=
  l.filterMap (fun p => (readC fs p).map (fun _ => fs.real p))

/-- The size key under which tier 1 buckets an (accessible) file. -/
def sizeKey (fs : FS) (q : String) : Nat :=
  ((fs.content q).getD []).length

/-- The first-1024-bytes key under which tier 2 buckets a file. -/
def key1k (fs : FS) (q : String) : Bytes :=
  ((fs.content q).getD []).take 1024

/-- Grouping a list of paths by a key function into a Python dict;
this is the shape of the accumulation loops building `hashes_by_size`
and `hashes_on_1k`. -/
def groupFold {κ : Type} [DecidableEq κ] (key : String → κ)
    (m : List String) (d : List (κ × List String)) : List (κ × List String) :=
  m.foldl (fun d q => dictApp (key q) q d) d

/-- The files whose content is exactly `c`. -/
def contentIs (fs : FS) (c : Bytes) : String → Bool :=
  fun y => decide (fs.content y = some c)

/- ----------------------------------------------------------------- -/
/- The comment scanner (`extract_comment_java`, lines 130-164).       -/
/- ----------------------------------------------------------------- -/

/-- One comment record: the matched text (`match.group(0)`) and its
`match.span()`, i.e. start offset (inclusive) and stop offset
(exclusive) in the decoded source text. -/
structure CommentRec where
  content : List Nat
  start : Nat
  stop : Nat
  deriving DecidableEq, Repr

/-- Index of the first occurrence of `pat` as a contiguous sub-list of
`t` (the semantics of a regex literal search). -/
def findSub (pat : List Nat) : List Nat → Option Nat
  | [] => if pat = [] then some 0 else none
  | a :: t => if (a :: t).take pat.length = pat then some 0
              else (findSub pat t).map (· + 1)

/-- `pat` occurs in `t` starting at index `k`. -/
def occursAt (pat t : List Nat) (k : Nat) : Prop :=
  (t.drop k).take pat.length = pat

instance (pat t : List Nat) (k : Nat) : Decidable (occursAt pat t k) := by
  unfold occursAt; infer_instance

/-- `re.finditer(r'/\*.*?\*/', src, DOTALL)` on the suffix `s` of the
source sitting at absolute offset `off`; `fuel ≥ s.length` makes the
recursion structural.  `/*` is `[47,42]`, `*/` is `[42,47]`. -/
def blocksAux : Nat → List Nat → Nat → List CommentRec
  | 0, _, _ => []
  | fuel + 1, s, off =>
    match findSub [47, 42] s with
    | none => []
    | some i =>
      match findSub [42, 47] (s.drop (i + 2)) with
      | none => []
      | some j =>
        ⟨(s.drop i).take (j + 4), off + i, off + i + (j + 4)⟩ ::
          blocksAux fuel (s.drop (i + j + 4)) (off + i + (j + 4))

/-- All block-comment records of a text, in match order. -/
def blockComments (t : List Nat) : List CommentRec :=
  blocksAux t.length t 0

/-- `re.finditer(r'//.*?$', src, MULTILINE)`: a match starts at `//`
(`[47,47]`) and extends up to, excluding, the next `'\n'` (code 10). -/
def linesAux : Nat → List Nat → Nat → List CommentRec
  | 0, _, _ => []
  | fuel + 1, s, off =>
    match findSub [47, 47] s with
    | none => []
    | some i =>
      let body := (s.drop i).takeWhile (fun b => b != 10)
      ⟨body, off + i, off + i + body.length⟩ ::
        linesAux fuel (s.drop (i + body.length)) (off + i + body.length)

/-- All line-comment records of a text, in match order. -/
def lineComments (t : List Nat) : List CommentRec :=
  linesAux t.length t 0

/-- The comment list built for one file: the block-comment loop runs
first (lines 154-158), the line-comment loop is appended after it
(lines 159-163). -/
def scanText (t : List Nat) : List CommentRec :=
  blockComments t ++ lineComments t

/-- Strict UTF-8 decoding of a byte list into code points; `none` on
any malformed sequence (overlong forms, surrogates, truncation), which
is when Python's `f.read()` raises `UnicodeDecodeError`. -/
def utf8Decode : List Nat → Option (List Nat)
  | [] => some []
  | b :: bs =>
    if b < 0x80 then (utf8Decode bs).map (fun t => b :: t)
    else if b < 0xC2 then none
    else if b < 0xE0 then
      match bs with
      | b1 :: bs2 =>
        if 0x80 ≤ b1 ∧ b1 < 0xC0 then
          (utf8Decode bs2).map (fun t => ((b - 0xC0) * 64 + (b1 - 0x80)) :: t)
        else none
      | [] => none
    else if b < 0xF0 then
      match bs with
      | b1 :: b2 :: bs2 =>
        if (if b = 0xE0 then 0xA0 ≤ b1 ∧ b1 < 0xC0
            else if b = 0xED then 0x80 ≤ b1 ∧ b1 < 0xA0
            else 0x80 ≤ b1 ∧ b1 < 0xC0) ∧ 0x80 ≤ b2 ∧ b2 < 0xC0 then
          (utf8Decode bs2).map
            (fun t => ((b - 0xE0) * 4096 + (b1 - 0x80) * 64 + (b2 - 0x80)) :: t)
        else none
      | _ => none
    else if b < 0xF5 then
      match bs with
      | b1 :: b2 :: b3 :: bs2 =>
        if (if b = 0xF0 then 0x90 ≤ b1 ∧ b1 < 0xC0
            else if b = 0xF4 then 0x80 ≤ b1 ∧ b1 < 0x90
            else 0x80 ≤ b1 ∧ b1 < 0xC0) ∧ 0x80 ≤ b2 ∧ b2 < 0xC0 ∧
            0x80 ≤ b3 ∧ b3 < 0xC0 then
          (utf8Decode bs2).map
            (fun t => ((b - 0xF0) * 262144 + (b1 - 0x80) * 4096 +
                       (b2 - 0x80) * 64 + (b3 - 0x80)) :: t)
        else none
      | _ => none
    else none

/-- The `errors="surrogateescape"` decoding of one byte under the
`ascii` codec: bytes below 128 map to themselves, the rest to the lone
surrogate `0xDC00 + b`. -/
def escByte (b : Nat) : Nat :=
  if b < 128 then b else 0xDC00 + b

/-- The fallback decode at line 148 (one code point per byte). -/
def surrEsc (bs : Bytes) : List Nat :=
  bs.map escByte

/-- Universal-newline translation performed by text-mode `open`:
`"\r\n"` and `"\r"` both become `"\n"`. -/
def univNewlines : List Nat → List Nat
  | [] => []
  | 13 :: 10 :: rest => 10 :: univNewlines rest
  | 13 :: rest => 10 :: univNewlines rest
  | b :: rest => b :: univNewlines rest

/-- `src = f.read()` for a file with raw bytes `bs` (lines 142-149):
strict UTF-8 first, the permissive surrogate-escape decode when that
raises, universal newlines in both cases. -/
def readText (bs : Bytes) : List Nat :=
  match utf8Decode bs with
  | some t => univNewlines t
  | none => univNewlines (surrEsc bs)

/-- The per-file entry of the result dictionary: `size` is the raw byte
size from `os.path.getsize`, `comments` the records of both passes. -/
structure FileEntry where
  size : Nat
  comments : List CommentRec
  deriving DecidableEq, Repr

/-- `extract_comment_java` (lines 130-164).  `none` models an uncaught
exception: `os.path.getsize(path)` (line 138) and the `open` calls are
not guarded against `OSError`, so an inaccessible file aborts the whole
call; only `UnicodeDecodeError` is absorbed (by `readText`). -/
def extract_comment_java (fs : FS) : List String → Option (List (String × FileEntry))
  | [] => some []
  | p :: ps =>
    match fs.content p with
    | none => none
    | some bs =>
      (extract_comment_java fs ps).map
        (fun rest => (p, ⟨bs.length, scanText (readText bs)⟩) :: rest)

/- ----------------------------------------------------------------- -/
/- The metric aggregation loop (`__main__`, lines 253-268).           -/
/- ----------------------------------------------------------------- -/

/-- The per-project metric row written back into the CSV. -/
structure ProjectMetrics where
  src_files : Nat
  src_file_size : Nat
  comment_size : Nat
  doc_comment : Nat
  impl_comment : Nat
  deriving DecidableEq, Repr

/-- `comment['content'].startswith('/**')` on decoded text. -/
def docFlag (r : CommentRec) : Bool :=
  decide (r.content.take 3 = [47, 42, 42])

/-- The aggregation loop at lines 253-268 for one project's comment
map: file count, sum of sizes, and the running
`comment_size`/`doc_comment`/`impl_comment` counters. -/
def aggregate (comments : List (String × FileEntry)) : ProjectMetrics :=
  let counters := comments.foldl
    (fun acc kv => kv.2.comments.foldl
      (fun acc c =>
        (acc.1 + c.content.length,
         if docFlag c then acc.2.1 + 1 else acc.2.1,
         if docFlag c then acc.2.2 else acc.2.2 + 1)) acc)
    ((0 : Nat), (0 : Nat), (0 : Nat))
  ⟨comments.length, (comments.map (fun kv => kv.2.size)).sum,
   counters.1, counters.2.1, counters.2.2⟩

/-- All comment records of a comment map, in file order. -/
def allRecords (m : List (String × FileEntry)) : List CommentRec :=
  (m.map (fun kv => kv.2.comments)).flatten

/- ----------------------------------------------------------------- -/
/- Concrete file systems used as counterexamples and witnesses.       -/
/- ----------------------------------------------------------------- -/

/-- A canonical `realpath`: the identity, except that the empty path
resolves to a non-empty one (as `os.path.realpath` never returns the
empty string).  It is idempotent. -/
def realCanon : String → String :=
  fun p => if p = "" then "x" else p

/-- A file system where every file is inaccessible (e.g. vanished
between discovery and processing). -/
def fsGone : FS :=
  ⟨realCanon, fun _ => none⟩

/-- A file system with one file `"f"` whose raw bytes are the UTF-8
encoding of `"é/**/"`: `C3 A9 2F 2A 2A 2F`. -/
def fsMulti : FS :=
  ⟨realCanon, fun p => if p = "f" then some [195, 169, 47, 42, 42, 47] else none⟩

/-- A file system with two byte-identical files `"a"` and `"b"` and a
distinct file `"c"`. -/
def fsTwoDup : FS :=
  ⟨realCanon, fun p =>
    if p = "a" then some [1, 2]
    else if p = "b" then some [1, 2]
    else if p = "c" then some [9] else none⟩

/-- A file system with two files of equal size but different first
bytes. -/
def fsTwoDiff : FS :=
  ⟨realCanon, fun p =>
    if p = "a" then some [1, 2]
    else if p = "b" then some [3, 2] else none⟩

/- ----------------------------------------------------------------- -/
/- Properties of the literal search `findSub` / `occursAt`.           -/
/- ----------------------------------------------------------------- -/

theorem occursAt_drop {pat s : List Nat} {m k : Nat} :
    occursAt pat (s.drop m) k ↔ occursAt pat s (m + k) := by
  unfold occursAt
  rw [List.drop_drop]

theorem occursAt_length {pat t : List Nat} {k : Nat} (hpat : pat ≠ [])
    (h : occursAt pat t k) : k + pat.length ≤ t.length := by
  unfold occursAt at h
  have hpos : 0 < pat.length := List.length_pos.mpr hpat
  have h1 := congrArg List.length h
  simp only [List.length_take, List.length_drop, Nat.min_def] at h1
  split at h1 <;> omega

theorem findSub_some_occursAt {pat : List Nat} :
    ∀ {t : List Nat} {i : Nat}, findSub pat t = some i → occursAt pat t i := by
  intro t
  induction t with
  | nil =>
    intro i h
    unfold findSub at h
    split at h
    · simp only [Option.some.injEq] at h
      subst h
      simpa [occursAt] using ‹pat = []›.symm
    · exact absurd h (by simp)
  | cons a t ih =>
    intro i h
    unfold findSub at h
    split at h
    · simp only [Option.some.injEq] at h
      subst h
      simpa [occursAt] using ‹(a :: t).take pat.length = pat›
    · rcases Option.map_eq_some'.mp h with ⟨j, hj, rfl⟩
      have := ih hj
      simpa [occursAt, List.drop_succ_cons] using this

theorem findSub_some_min {pat : List Nat} :
    ∀ {t : List Nat} {i : Nat}, findSub pat t = some i →
      ∀ k, k < i → ¬ occursAt pat t k := by
  intro t
  induction t with
  | nil =>
    intro i h k hk
    unfold findSub at h
    split at h
    · simp only [Option.some.injEq] at h; omega
    · exact absurd h (by simp)
  | cons a t ih =>
    intro i h k hk
    unfold findSub at h
    split at h
    · simp only [Option.some.injEq] at h; omega
    · rcases Option.map_eq_some'.mp h with ⟨j, hj, rfl⟩
      match k with
      | 0 =>
        intro hocc
        exact ‹¬ (a :: t).take pat.length = pat› (by simpa [occursAt] using hocc)
      | k + 1 =>
        intro hocc
        exact ih hj k (by omega) (by simpa [occursAt, List.drop_succ_cons] using hocc)

theorem findSub_none {pat : List Nat} :
    ∀ {t : List Nat}, findSub pat t = none → ∀ k, ¬ occursAt pat t k := by
  intro t
  induction t with
  | nil =>
    intro h k hocc
    unfold findSub at h
    split at h
    · exact absurd h (by simp)
    · unfold occursAt at hocc
      simp only [List.drop_nil, List.take_nil] at hocc
      exact ‹¬ pat = []› hocc.symm
  | cons a t ih =>
    intro h k hocc
    unfold findSub at h
    split at h
    · exact absurd h (by simp)
    · have hnone : findSub pat t = none := by
        cases hft : findSub pat t with
        | none => rfl
        | some j => rw [hft] at h; simp at h
      match k with
      | 0 =>
        exact ‹¬ (a :: t).take pat.length = pat› (by simpa [occursAt] using hocc)
      | k + 1 =>
        exact ih hnone k (by simpa [occursAt, List.drop_succ_cons] using hocc)

/- ----------------------------------------------------------------- -/
/- Characterization of the block-comment pass.                        -/
/- ----------------------------------------------------------------- -/

theorem blocksAux_mem_spec :
    ∀ (fuel : Nat) (s : List Nat) (off : Nat), s.length ≤ fuel →
      ∀ r ∈ blocksAux fuel s off,
        off ≤ r.start ∧
        occursAt [47, 42] s (r.start - off) ∧
        r.start + 4 ≤ r.stop ∧
        r.stop ≤ off + s.length ∧
        r.content = (s.drop (r.start - off)).take (r.stop - r.start) ∧
        occursAt [42, 47] s (r.stop - off - 2) ∧
        (∀ k, r.start - off + 2 ≤ k → k < r.stop - off - 2 →
          ¬ occursAt [42, 47] s k) := by
  intro fuel
  induction fuel with
  | zero => intro s off _ r hr; simp [blocksAux] at hr
  | succ fuel ih =>
    intro s off hlen r hr
    cases hopen : findSub [47, 42] s with
    | none =>
      rw [show blocksAux (fuel + 1) s off = [] by (conv_lhs => unfold blocksAux); simp only [hopen]] at hr
      simp at hr
    | some i =>
      cases hclose : findSub [42, 47] (s.drop (i + 2)) with
      | none =>
        rw [show blocksAux (fuel + 1) s off = [] by
          (conv_lhs => unfold blocksAux); simp only [hopen, hclose]] at hr
        simp at hr
      | some j =>
        rw [show blocksAux (fuel + 1) s off =
            ⟨(s.drop i).take (j + 4), off + i, off + i + (j + 4)⟩ ::
              blocksAux fuel (s.drop (i + j + 4)) (off + i + (j + 4)) by
          (conv_lhs => unfold blocksAux); simp only [hopen, hclose]] at hr
        have hoi : occursAt [47, 42] s i := findSub_some_occursAt hopen
        have hcj : occursAt [42, 47] (s.drop (i + 2)) j :=
          findSub_some_occursAt hclose
        have hilen : i + 2 ≤ s.length := by
          have := occursAt_length (by simp) hoi; simpa using this
        have hjlen : j + 2 ≤ s.length - (i + 2) := by
          have := occursAt_length (by simp) hcj; simpa using this
        have hbound : i + j + 4 ≤ s.length := by omega
        rcases List.mem_cons.mp hr with hhead | htail
        · subst hhead
          dsimp only
          refine ⟨by omega, ?_, by omega, by omega, ?_, ?_, ?_⟩
          · simpa using hoi
          · have e1 : off + i + (j + 4) - (off + i) = j + 4 := by omega
            have e2 : off + i - off = i := by omega
            rw [e1, e2]
          · have : occursAt [42, 47] s (i + 2 + j) := occursAt_drop.mp hcj
            have heq : off + i + (j + 4) - off - 2 = i + 2 + j := by omega
            rw [heq]; exact this
          · intro k hk1 hk2 hocc
            have hk1' : i + 2 ≤ k := by omega
            have hk2' : k < i + 2 + j := by omega
            have : occursAt [42, 47] (s.drop (i + 2)) (k - (i + 2)) := by
              rw [occursAt_drop]
              have : i + 2 + (k - (i + 2)) = k := by omega
              rw [this]; exact hocc
            exact findSub_some_min hclose (k - (i + 2)) (by omega) this
        · have hlen' : (s.drop (i + j + 4)).length ≤ fuel := by
            simp only [List.length_drop]; omega
          have := ih (s.drop (i + j + 4)) (off + i + (j + 4)) hlen' r htail
          obtain ⟨h1, h2, h3, h4, h5, h6, h7⟩ := this
          have hm : ∀ x, (s.drop (i + j + 4)).drop x = s.drop (i + j + 4 + x) := by
            intro x
            rw [List.drop_drop]
          refine ⟨by omega, ?_, h3, ?_, ?_, ?_, ?_⟩
          · have := occursAt_drop.mp h2
            have heq : i + j + 4 + (r.start - (off + i + (j + 4))) = r.start - off := by
              omega
            rw [heq] at this; exact this
          · simp only [List.length_drop] at h4; omega
          · rw [h5, hm]
            congr 2
            omega
          · have := occursAt_drop.mp h6
            have heq : i + j + 4 + (r.stop - (off + i + (j + 4)) - 2) =
                r.stop - off - 2 := by omega
            rw [heq] at this; exact this
          · intro k hk1 hk2 hocc
            have hkm : i + j + 4 ≤ k := by omega
            have : occursAt [42, 47] (s.drop (i + j + 4)) (k - (i + j + 4)) := by
              rw [occursAt_drop]
              have heq : i + j + 4 + (k - (i + j + 4)) = k := by omega
              rw [heq]; exact hocc
            exact h7 (k - (i + j + 4)) (by omega) (by omega) this

theorem blocksAux_start_lb :
    ∀ (fuel : Nat) (s : List Nat) (off : Nat), ∀ r ∈ blocksAux fuel s off,
      off ≤ r.start := by
  intro fuel
  induction fuel with
  | zero => intro s off r hr; simp [blocksAux] at hr
  | succ fuel ih =>
    intro s off r hr
    cases hopen : findSub [47, 42] s with
    | none =>
      rw [show blocksAux (fuel + 1) s off = [] by (conv_lhs => unfold blocksAux); simp only [hopen]] at hr
      simp at hr
    | some i =>
      cases hclose : findSub [42, 47] (s.drop (i + 2)) with
      | none =>
        rw [show blocksAux (fuel + 1) s off = [] by
          (conv_lhs => unfold blocksAux); simp only [hopen, hclose]] at hr
        simp at hr
      | some j =>
        rw [show blocksAux (fuel + 1) s off =
            ⟨(s.drop i).take (j + 4), off + i, off + i + (j + 4)⟩ ::
              blocksAux fuel (s.drop (i + j + 4)) (off + i + (j + 4)) by
          (conv_lhs => unfold blocksAux); simp only [hopen, hclose]] at hr
        rcases List.mem_cons.mp hr with hhead | htail
        · subst hhead; dsimp only; omega
        · have := ih (s.drop (i + j + 4)) (off + i + (j + 4)) r htail
          omega

theorem blocksAux_sorted :
    ∀ (fuel : Nat) (s : List Nat) (off : Nat),
      (blocksAux fuel s off).Pairwise (fun a b => a.start < b.start) := by
  intro fuel
  induction fuel with
  | zero => intro s off; simp [blocksAux]
  | succ fuel ih =>
    intro s off
    cases hopen : findSub [47, 42] s with
    | none =>
      rw [show blocksAux (fuel + 1) s off = [] by (conv_lhs => unfold blocksAux); simp only [hopen]]
      simp
    | some i =>
      cases hclose : findSub [42, 47] (s.drop (i + 2)) with
      | none =>
        rw [show blocksAux (fuel + 1) s off = [] by
          (conv_lhs => unfold blocksAux); simp only [hopen, hclose]]
        simp
      | some j =>
        rw [show blocksAux (fuel + 1) s off =
            ⟨(s.drop i).take (j + 4), off + i, off + i + (j + 4)⟩ ::
              blocksAux fuel (s.drop (i + j + 4)) (off + i + (j + 4)) by
          (conv_lhs => unfold blocksAux); simp only [hopen, hclose]]
        refine List.pairwise_cons.mpr ⟨?_, ih _ _⟩
        intro r hr
        have := blocksAux_start_lb fuel (s.drop (i + j + 4)) (off + i + (j + 4)) r hr
        dsimp only
        omega

/- ----------------------------------------------------------------- -/
/- Characterization of the line-comment pass.                         -/
/- ----------------------------------------------------------------- -/

theorem exists_cons_of_take_two {s : List Nat} (h : s.take 2 = [47, 47]) :
    ∃ s', s = 47 :: 47 :: s' := by
  match s with
  | [] => simp at h
  | [a] => simp at h
  | a :: b :: s' =>
    simp only [List.take_succ_cons, List.take_zero] at h
    have ha : a = 47 := by injection h
    have hb : b = 47 := by
      injection h with h1 h2; injection h2
    exact ⟨s', by rw [ha, hb]⟩

theorem takeWhile_of_double_slash {s : List Nat} (h : s.take 2 = [47, 47]) :
    2 ≤ (s.takeWhile (fun b => b != 10)).length ∧
      (s.takeWhile (fun b => b != 10)).take 2 = [47, 47] := by
  obtain ⟨s', rfl⟩ := exists_cons_of_take_two h
  simp [List.takeWhile_cons]

theorem length_takeWhile_le' (p : Nat → Bool) :
    ∀ (l : List Nat), (l.takeWhile p).length ≤ l.length := by
  intro l
  induction l with
  | nil => simp
  | cons a l ih =>
    rw [List.takeWhile_cons]
    split
    · simpa using ih
    · simp

theorem drop_length_takeWhile (p : Nat → Bool) :
    ∀ (l : List Nat), l.drop (l.takeWhile p).length = l.dropWhile p := by
  intro l
  induction l with
  | nil => rfl
  | cons a l ih =>
    rw [List.takeWhile_cons, List.dropWhile_cons]
    split
    · simpa using ih
    · rfl

theorem take_length_takeWhile (p : Nat → Bool) :
    ∀ (l : List Nat), l.take (l.takeWhile p).length = l.takeWhile p := by
  intro l
  induction l with
  | nil => rfl
  | cons a l ih =>
    rw [List.takeWhile_cons]
    split
    · simpa using ih
    · rfl

theorem head?_dropWhile_false (p : Nat → Bool) :
    ∀ (l : List Nat) (x : Nat), (l.dropWhile p).head? = some x → p x = false := by
  intro l
  induction l with
  | nil => intro x h; simp at h
  | cons a l ih =>
    intro x h
    rw [List.dropWhile_cons] at h
    split at h
    · exact ih x h
    · simp only [List.head?_cons, Option.some.injEq] at h
      subst h
      simpa using ‹¬ p a = true›

theorem linesAux_mem_spec :
    ∀ (fuel : Nat) (s : List Nat) (off : Nat), s.length ≤ fuel →
      ∀ r ∈ linesAux fuel s off,
        off ≤ r.start ∧
        occursAt [47, 47] s (r.start - off) ∧
        r.content = (s.drop (r.start - off)).takeWhile (fun b => b != 10) ∧
        r.stop = r.start + r.content.length ∧
        r.stop ≤ off + s.length ∧
        (r.stop - off = s.length ∨ (s.drop (r.stop - off)).head? = some 10) := by
  intro fuel
  induction fuel with
  | zero => intro s off _ r hr; simp [linesAux] at hr
  | succ fuel ih =>
    intro s off hlen r hr
    cases hopen : findSub [47, 47] s with
    | none =>
      rw [show linesAux (fuel + 1) s off = [] by
        (conv_lhs => unfold linesAux); simp only [hopen]] at hr
      simp at hr
    | some i =>
      rw [show linesAux (fuel + 1) s off =
          ⟨(s.drop i).takeWhile (fun b => b != 10), off + i,
           off + i + ((s.drop i).takeWhile (fun b => b != 10)).length⟩ ::
            linesAux fuel
              (s.drop (i + ((s.drop i).takeWhile (fun b => b != 10)).length))
              (off + i + ((s.drop i).takeWhile (fun b => b != 10)).length) by
        (conv_lhs => unfold linesAux); simp only [hopen]] at hr
      have hoi : occursAt [47, 47] s i := findSub_some_occursAt hopen
      have hilen : i + 2 ≤ s.length := by
        have := occursAt_length (by simp) hoi; simpa using this
      have hbody := takeWhile_of_double_slash (s := s.drop i) (by simpa using hoi)
      set body := (s.drop i).takeWhile (fun b => b != 10) with hbodydef
      have hblen : body.length ≤ s.length - i := by
        have h1 : body.length ≤ (s.drop i).length := length_takeWhile_le' _ _
        simpa using h1
      have hrest : s.drop (i + body.length) = (s.drop i).dropWhile (fun b => b != 10) := by
        rw [← drop_length_takeWhile (fun b => b != 10) (s.drop i), List.drop_drop,
          ← hbodydef]
      rcases List.mem_cons.mp hr with hhead | htail
      · subst hhead
        dsimp only
        refine ⟨by omega, ?_, ?_, rfl, by omega, ?_⟩
        · have e : off + i - off = i := by omega
          rw [e]; exact hoi
        · have e : off + i - off = i := by omega
          rw [e]
        · have e : off + i + body.length - off = i + body.length := by omega
          rw [e]
          cases hdw : (s.drop i).dropWhile (fun b => b != 10) with
          | nil =>
            left
            have : (s.drop (i + body.length)).length = 0 := by
              rw [hrest, hdw]; rfl
            simp only [List.length_drop] at this
            omega
          | cons x rest =>
            right
            rw [hrest, hdw]
            have hx := head?_dropWhile_false (fun b => b != 10) (s.drop i) x
              (by rw [hdw]; rfl)
            have : x = 10 := by simpa using hx
            rw [this]
            rfl
      · have hlen' : (s.drop (i + body.length)).length ≤ fuel := by
          simp only [List.length_drop]; omega
        have := ih (s.drop (i + body.length)) (off + i + body.length) hlen' r htail
        obtain ⟨h1, h2, h3, h4, h5, h6⟩ := this
        have hm : ∀ x, (s.drop (i + body.length)).drop x = s.drop (i + body.length + x) := by
          intro x
          rw [List.drop_drop]
        refine ⟨by omega, ?_, ?_, h4, ?_, ?_⟩
        · have := occursAt_drop.mp h2
          have heq : i + body.length + (r.start - (off + i + body.length)) =
              r.start - off := by omega
          rw [heq] at this; exact this
        · rw [h3, hm]
          congr 2
          omega
        · simp only [List.length_drop] at h5; omega
        · rcases h6 with h6 | h6
          · left
            simp only [List.length_drop] at h6
            omega
          · right
            rw [hm] at h6
            have heq : i + body.length + (r.stop - (off + i + body.length)) =
                r.stop - off := by omega
            rw [heq] at h6; exact h6

theorem linesAux_start_lb :
    ∀ (fuel : Nat) (s : List Nat) (off : Nat), ∀ r ∈ linesAux fuel s off,
      off ≤ r.start := by
  intro fuel
  induction fuel with
  | zero => intro s off r hr; simp [linesAux] at hr
  | succ fuel ih =>
    intro s off r hr
    cases hopen : findSub [47, 47] s with
    | none =>
      rw [show linesAux (fuel + 1) s off = [] by
        (conv_lhs => unfold linesAux); simp only [hopen]] at hr
      simp at hr
    | some i =>
      rw [show linesAux (fuel + 1) s off =
          ⟨(s.drop i).takeWhile (fun b => b != 10), off + i,
           off + i + ((s.drop i).takeWhile (fun b => b != 10)).length⟩ ::
            linesAux fuel
              (s.drop (i + ((s.drop i).takeWhile (fun b => b != 10)).length))
              (off + i + ((s.drop i).takeWhile (fun b => b != 10)).length) by
        (conv_lhs => unfold linesAux); simp only [hopen]] at hr
      rcases List.mem_cons.mp hr with hhead | htail
      · subst hhead; dsimp only; omega
      · have := ih _ _ r htail
        omega

theorem linesAux_sorted :
    ∀ (fuel : Nat) (s : List Nat) (off : Nat),
      (linesAux fuel s off).Pairwise (fun a b => a.start < b.start) := by
  intro fuel
  induction fuel with
  | zero => intro s off; simp [linesAux]
  | succ fuel ih =>
    intro s off
    cases hopen : findSub [47, 47] s with
    | none =>
      rw [show linesAux (fuel + 1) s off = [] by
        (conv_lhs => unfold linesAux); simp only [hopen]]
      simp
    | some i =>
      rw [show linesAux (fuel + 1) s off =
          ⟨(s.drop i).takeWhile (fun b => b != 10), off + i,
           off + i + ((s.drop i).takeWhile (fun b => b != 10)).length⟩ ::
            linesAux fuel
              (s.drop (i + ((s.drop i).takeWhile (fun b => b != 10)).length))
              (off + i + ((s.drop i).takeWhile (fun b => b != 10)).length) by
        (conv_lhs => unfold linesAux); simp only [hopen]]
      have hoi : occursAt [47, 47] s i := findSub_some_occursAt hopen
      have hbody := takeWhile_of_double_slash (s := s.drop i) (by simpa using hoi)
      refine List.pairwise_cons.mpr ⟨?_, ih _ _⟩
      intro r hr
      have := linesAux_start_lb fuel _ _ r hr
      dsimp only
      omega

theorem blocksAux_no_close (fuel : Nat) (s : List Nat) (off : Nat)
    (h : ∀ k, ¬ occursAt [42, 47] s k) : blocksAux fuel s off = [] := by
  cases fuel with
  | zero => rfl
  | succ fuel =>
    cases hopen : findSub [47, 42] s with
    | none =>
      (conv_lhs => unfold blocksAux); simp only [hopen]
    | some i =>
      cases hclose : findSub [42, 47] (s.drop (i + 2)) with
      | none =>
        (conv_lhs => unfold blocksAux); simp only [hopen, hclose]
      | some j =>
        exact absurd (occursAt_drop.mp (findSub_some_occursAt hclose)) (h _)

/-- Every record of `scanText` carries its exact span in the scanned
text: the stop offset is start plus content length, and the text slice
at the span is the content. -/
theorem scanText_span_exact (t : List Nat) (r : CommentRec) (hr : r ∈ scanText t) :
    r.stop = r.start + r.content.length ∧
      (t.drop r.start).take r.content.length = r.content ∧
      r.stop ≤ t.length := by
  rcases List.mem_append.mp hr with hb | hl
  · have := blocksAux_mem_spec t.length t 0 le_rfl r hb
    obtain ⟨-, -, h3, h4, h5, -, -⟩ := this
    simp only [Nat.sub_zero, Nat.zero_add] at h3 h4 h5
    have hclen : r.content.length = r.stop - r.start := by
      rw [h5]
      rw [List.length_take, List.length_drop]
      omega
    constructor
    · omega
    · constructor
      · rw [hclen, ← h5]
      · omega
  · have := linesAux_mem_spec t.length t 0 le_rfl r hl
    obtain ⟨-, -, h3, h4, h5, -⟩ := this
    simp only [Nat.sub_zero, Nat.zero_add] at h3 h4 h5
    refine ⟨h4, ?_, by omega⟩
    rw [h3, take_length_takeWhile]

/-- C3: every block-comment record produced by the scanner starts at a
`/*` occurrence of the text and ends at the nearest subsequent `*/`
(shortest valid span: no `*/` starts between the opening delimiter and
the closing one), and an opening `/*` with no `*/` anywhere after it
produces no record at all; for the input `"/*no-close"` that contains
only an unterminated `/*`, the scan yields zero records. -/
theorem block_comment_spec :
    (∀ (t : List Nat) (r : CommentRec), r ∈ blockComments t →
        occursAt [47, 42] t r.start ∧
        r.start + 4 ≤ r.stop ∧
        r.stop ≤ t.length ∧
        occursAt [42, 47] t (r.stop - 2) ∧
        (∀ k, r.start + 2 ≤ k → k < r.stop - 2 → ¬ occursAt [42, 47] t k)) ∧
    (∀ t : List Nat, (∀ k, ¬ occursAt [42, 47] t k) → blockComments t = []) ∧
    scanText [47, 42, 110, 111, 45, 99, 108, 111, 115, 101] = [] := by
  refine ⟨?_, ?_, by decide⟩
  · intro t r hr
    have := blocksAux_mem_spec t.length t 0 le_rfl r hr
    obtain ⟨h1, h2, h3, h4, h5, h6, h7⟩ := this
    simp only [Nat.sub_zero, Nat.zero_add] at h2 h4 h6 h7
    exact ⟨h2, h3, h4, h6, h7⟩
  · intro t h
    exact blocksAux_no_close t.length t 0 h

/-- Witness for C3 at concrete inputs: the record of `"/**/"` and the
unterminated text `"/*"`. -/
theorem block_comment_spec_witness :
    (occursAt [47, 42] ([47, 42, 42, 47] : List Nat) 0 ∧
     0 + 4 ≤ 4 ∧
     4 ≤ ([47, 42, 42, 47] : List Nat).length ∧
     occursAt [42, 47] ([47, 42, 42, 47] : List Nat) (4 - 2) ∧
     (∀ k, 0 + 2 ≤ k → k < 4 - 2 →
        ¬ occursAt [42, 47] ([47, 42, 42, 47] : List Nat) k)) ∧
    blockComments [47, 42] = [] :=
  ⟨block_comment_spec.1 [47, 42, 42, 47] ⟨[47, 42, 42, 47], 0, 4⟩ (by decide),
   block_comment_spec.2.1 [47, 42] (by
     intro k hocc
     have hb := occursAt_length (by simp) hocc
     simp only [List.length_cons, List.length_nil] at hb
     have hk : k = 0 := by omega
     subst hk
     exact absurd hocc (by decide))⟩

/-- C4: every line-comment record starts at a `//` occurrence and
extends to, but not including, the next line terminator or the end of
input; in particular the scan of `"a/*hello*/b//world\nc"` yields
exactly the block record `"/*hello*/"` with span `[1, 10)` and the line
record `"//world"` with span `[11, 18)`, stopping before the newline. -/
theorem line_comment_spec :
    (∀ (t : List Nat) (r : CommentRec), r ∈ lineComments t →
        occursAt [47, 47] t r.start ∧
        r.content = (t.drop r.start).takeWhile (fun b => b != 10) ∧
        r.stop = r.start + r.content.length ∧
        (r.stop = t.length ∨ (t.drop r.stop).head? = some 10)) ∧
    scanText [97, 47, 42, 104, 101, 108, 108, 111, 42, 47, 98, 47, 47, 119,
        111, 114, 108, 100, 10, 99] =
      [⟨[47, 42, 104, 101, 108, 108, 111, 42, 47], 1, 10⟩,
       ⟨[47, 47, 119, 111, 114, 108, 100], 11, 18⟩] := by
  refine ⟨?_, by decide⟩
  intro t r hr
  have := linesAux_mem_spec t.length t 0 le_rfl r hr
  obtain ⟨h1, h2, h3, h4, h5, h6⟩ := this
  simp only [Nat.sub_zero, Nat.zero_add] at h2 h3 h6
  exact ⟨h2, h3, h4, h6⟩

/-- Witness for C4 at the concrete input `"//x"`. -/
theorem line_comment_spec_witness :
    occursAt [47, 47] ([47, 47, 120] : List Nat) 0 ∧
    ([47, 47, 120] : List Nat) =
      (([47, 47, 120] : List Nat).drop 0).takeWhile (fun b => b != 10) ∧
    3 = 0 + ([47, 47, 120] : List Nat).length ∧
    (3 = ([47, 47, 120] : List Nat).length ∨
      (([47, 47, 120] : List Nat).drop 3).head? = some 10) :=
  line_comment_spec.1 [47, 47, 120] ⟨[47, 47, 120], 0, 3⟩ (by decide)

/-- C8: the scanner's output is the concatenation of all block-comment
records followed by all line-comment records, each pass strictly
ordered by start offset, but the combined sequence is not guaranteed
sorted: for `"//a\n/**/"` the block record at offset 4 precedes the
line record at offset 0. -/
theorem scan_order_spec :
    (∀ t : List Nat,
        scanText t = blockComments t ++ lineComments t ∧
        (blockComments t).Pairwise (fun a b => a.start < b.start) ∧
        (lineComments t).Pairwise (fun a b => a.start < b.start)) ∧
    ¬ (scanText [47, 47, 97, 10, 47, 42, 42, 47]).Pairwise
        (fun a b => a.start ≤ b.start) := by
  refine ⟨?_, by decide⟩
  intro t
  exact ⟨rfl, blocksAux_sorted t.length t 0, linesAux_sorted t.length t 0⟩

/-- C10: the two passes are independent, so a `//` inside the body of a
block comment additionally yields a line record: `"/*a//b*/"` produces
both the block record `"/*a//b*/"` over `[0, 8)` and the line record
`"//b*/"` over `[3, 8)`; the aggregated metrics of that single 8-byte
file count `8 + 5 = 13` comment bytes, so the overlapping bytes are
counted twice (13 exceeds the file size 8). -/
theorem overlap_double_count :
    scanText [47, 42, 97, 47, 47, 98, 42, 47] =
      [⟨[47, 42, 97, 47, 47, 98, 42, 47], 0, 8⟩,
       ⟨[47, 47, 98, 42, 47], 3, 8⟩] ∧
    aggregate [("f", ⟨8, scanText [47, 42, 97, 47, 47, 98, 42, 47]⟩)] =
      ⟨1, 8, 13, 0, 2⟩ :=
  ⟨by decide, by decide⟩

/- ----------------------------------------------------------------- -/
/- The aggregation loop as a pure reduction (C7).                     -/
/- ----------------------------------------------------------------- -/

theorem comment_fold_eq (rs : List CommentRec) :
    ∀ (a : Nat × Nat × Nat),
      rs.foldl (fun acc c =>
        (acc.1 + c.content.length,
         if docFlag c then acc.2.1 + 1 else acc.2.1,
         if docFlag c then acc.2.2 else acc.2.2 + 1)) a =
      (a.1 + (rs.map (fun r => r.content.length)).sum,
       a.2.1 + rs.countP docFlag,
       a.2.2 + rs.countP (fun r => ! docFlag r)) := by
  induction rs with
  | nil => intro a; simp
  | cons r rs ih =>
    intro a
    obtain ⟨a1, a2, a3⟩ := a
    rw [List.foldl_cons, ih]
    by_cases h : docFlag r <;>
      simp [h, List.countP_cons, Prod.mk.injEq] <;> omega

theorem aggregate_outer (m : List (String × FileEntry)) :
    ∀ (a : Nat × Nat × Nat),
      m.foldl (fun acc kv => kv.2.comments.foldl
        (fun acc c =>
          (acc.1 + c.content.length,
           if docFlag c then acc.2.1 + 1 else acc.2.1,
           if docFlag c then acc.2.2 else acc.2.2 + 1)) acc) a =
      (a.1 + ((allRecords m).map (fun r => r.content.length)).sum,
       a.2.1 + (allRecords m).countP docFlag,
       a.2.2 + (allRecords m).countP (fun r => ! docFlag r)) := by
  induction m with
  | nil => intro a; simp [allRecords]
  | cons kv m ih =>
    intro a
    rw [List.foldl_cons, comment_fold_eq, ih]
    simp only [allRecords, List.map_cons, List.flatten_cons, List.map_append,
      List.sum_append, List.countP_append, Prod.mk.injEq]
    omega

/-- C7: `aggregate` is a pure reduction of the comment map: the file
count is the number of entries, total source bytes the sum of the
`size` fields, total comment bytes the sum of content lengths over all
records, the doc count the number of records whose content starts with
`/**`, and the implementation count the number of all other records;
moreover a line-comment record never starts with `/**` (its content
starts with `//`), so line comments are always counted as
implementation comments. -/
theorem aggregate_spec :
    (∀ m : List (String × FileEntry),
        aggregate m =
          ⟨m.length,
           (m.map (fun kv => kv.2.size)).sum,
           ((allRecords m).map (fun r => r.content.length)).sum,
           (allRecords m).countP docFlag,
           (allRecords m).countP (fun r => ! docFlag r)⟩) ∧
    (∀ (t : List Nat) (r : CommentRec), r ∈ lineComments t →
        docFlag r = false) := by
  constructor
  · intro m
    unfold aggregate
    rw [aggregate_outer]
    simp
  · intro t r hr
    have := linesAux_mem_spec t.length t 0 le_rfl r hr
    obtain ⟨-, h2, h3, -, -, -⟩ := this
    simp only [Nat.sub_zero] at h2 h3
    have htake := (takeWhile_of_double_slash
      (s := t.drop r.start) (by simpa using h2)).2
    rw [← h3] at htake
    obtain ⟨s', hs'⟩ := exists_cons_of_take_two htake
    unfold docFlag
    rw [hs']
    simp

/-- Witness for C7: a one-file map with a doc comment, and the line
record of `"//x"`. -/
theorem aggregate_spec_witness :
    aggregate [("a", ⟨5, [⟨[47, 42, 42, 47], 0, 4⟩]⟩)] = ⟨1, 5, 4, 1, 0⟩ ∧
    docFlag ⟨[47, 47, 120], 0, 3⟩ = false :=
  ⟨aggregate_spec.1 [("a", ⟨5, [⟨[47, 42, 42, 47], 0, 4⟩]⟩)],
   aggregate_spec.2 [47, 47, 120] ⟨[47, 47, 120], 0, 3⟩ (by decide)⟩

/- ----------------------------------------------------------------- -/
/- Decoding lemmas (C5, C6).                                          -/
/- ----------------------------------------------------------------- -/

theorem univNewlines_cons_ne (b : Nat) (t : List Nat) (hb : b ≠ 13) :
    univNewlines (b :: t) = b :: univNewlines t := by
  conv_lhs => unfold univNewlines
  split <;> simp_all

theorem univNewlines_id :
    ∀ (t : List Nat), (∀ b ∈ t, b ≠ 13) → univNewlines t = t := by
  intro t
  induction t with
  | nil => intro _; rfl
  | cons b t ih =>
    intro h
    rw [univNewlines_cons_ne b t (h b (by simp)),
      ih (fun x hx => h x (by simp [hx]))]

theorem escByte_ne_13 (b : Nat) (hb : b ≠ 13) : escByte b ≠ 13 := by
  unfold escByte
  split
  · exact hb
  · omega

theorem escByte_lt_128 (b : Nat) (hb : b < 128) : escByte b = b := by
  unfold escByte
  rw [if_pos hb]

theorem readText_self (bs : Bytes) (hself : utf8Decode bs = some bs)
    (hcr : ∀ b ∈ bs, b ≠ 13) : readText bs = bs := by
  unfold readText
  rw [hself]
  exact univNewlines_id bs hcr

theorem readText_fallback (bs : Bytes) (hdec : utf8Decode bs = none)
    (hcr : ∀ b ∈ bs, b ≠ 13) : readText bs = bs.map escByte := by
  unfold readText
  rw [hdec]
  apply univNewlines_id
  intro x hx
  rcases List.mem_map.mp hx with ⟨b, hb, rfl⟩
  exact escByte_ne_13 b (hcr b hb)

/-- C6 counterexample: for the file `"f"` of `fsMulti`, whose 6 raw
bytes are the UTF-8 encoding of `"é/**/"`, the scanner records the
block comment `"/**/"` with span `[1, 5)` — the code-point offsets in
the decoded text — but the comment's bytes occupy `[2, 6)` of the raw
content: the recorded offsets are not byte offsets. -/
theorem byte_offsets_cex :
    extract_comment_java fsMulti ["f"] =
      some [("f", ⟨6, [⟨[47, 42, 42, 47], 1, 5⟩]⟩)] ∧
    (([195, 169, 47, 42, 42, 47] : Bytes).drop 1).take (5 - 1) ≠
      [47, 42, 42, 47] ∧
    (([195, 169, 47, 42, 42, 47] : Bytes).drop 2).take 4 = [47, 42, 42, 47] :=
  ⟨by decide, by decide, by decide⟩

/-- C6 (amended): the recorded spans are exact offsets in the decoded
(newline-translated) text, for every file; they are exact byte offsets
only when decoded positions and byte positions coincide — in
particular for carriage-return-free content that is either all-ASCII or
taken through the permissive surrogate-escape fallback, where each byte
decodes to exactly one code point and the bytes under a record's span
decode pointwise to its content. -/
theorem byte_offsets_amended :
    (∀ (t : List Nat) (r : CommentRec), r ∈ scanText t →
        r.stop = r.start + r.content.length ∧
        (t.drop r.start).take r.content.length = r.content) ∧
    (∀ bs : Bytes, (∀ b ∈ bs, b ≠ 13) →
        (((∀ b ∈ bs, b < 128) ∧ utf8Decode bs = some bs) ∨ utf8Decode bs = none) →
        readText bs = bs.map escByte ∧
        (∀ r ∈ scanText (readText bs),
            r.content = ((bs.drop r.start).take (r.stop - r.start)).map escByte)) := by
  constructor
  · intro t r hr
    have := scanText_span_exact t r hr
    exact ⟨this.1, this.2.1⟩
  · intro bs hcr hdec
    have hmap : readText bs = bs.map escByte := by
      rcases hdec with ⟨hascii, hself⟩ | hnone
      · rw [readText_self bs hself hcr]
        conv_lhs => rw [← List.map_id bs]
        apply List.map_congr_left
        intro b hb
        exact (escByte_lt_128 b (hascii b hb)).symm
      · exact readText_fallback bs hnone hcr
    refine ⟨hmap, ?_⟩
    intro r hr
    have hspan := scanText_span_exact (readText bs) r hr
    have hlen : r.content.length = r.stop - r.start := by omega
    rw [← hspan.2.1, hmap, ← List.map_drop, ← List.map_take, hlen]

/-- Witness for C6 (amended) at concrete inputs: the decoded-offset
part at `"/**/"`, and the byte-offset part at the non-UTF-8 content
`[47, 47, 255]` (a `//` comment followed by an invalid byte). -/
theorem byte_offsets_witness :
    (4 = 0 + ([47, 42, 42, 47] : List Nat).length ∧
     (([47, 42, 42, 47] : List Nat).drop 0).take
        ([47, 42, 42, 47] : List Nat).length = [47, 42, 42, 47]) ∧
    (readText [47, 47, 255] = ([47, 47, 255] : Bytes).map escByte ∧
     (∀ r ∈ scanText (readText [47, 47, 255]),
        r.content =
          ((([47, 47, 255] : Bytes).drop r.start).take (r.stop - r.start)).map
            escByte)) :=
  ⟨byte_offsets_amended.1 [47, 42, 42, 47] ⟨[47, 42, 42, 47], 0, 4⟩ (by decide),
   byte_offsets_amended.2 [47, 47, 255] (by decide) (Or.inr (by decide))⟩

/- ----------------------------------------------------------------- -/
/- Python-dict lemmas.                                                -/
/- ----------------------------------------------------------------- -/

theorem lookupD_dictApp {κ α : Type} [DecidableEq κ] (k k' : κ) (x : α) :
    ∀ d : List (κ × List α),
      lookupD k (dictApp k' x d) =
        if k = k' then lookupD k d ++ [x] else lookupD k d := by
  intro d
  induction d with
  | nil =>
    simp only [dictApp, lookupD]
    split <;> simp_all [lookupD]
  | cons kv d ih =>
    obtain ⟨k0, xs⟩ := kv
    simp only [dictApp]
    by_cases h0 : k' = k0
    · subst h0
      simp only [if_pos rfl, lookupD]
      by_cases hk : k = k'
      · subst hk; simp
      · simp [hk]
    · rw [if_neg h0]
      simp only [lookupD]
      by_cases hk : k = k0
      · subst hk
        have hne : ¬ k = k' := fun h => h0 h.symm
        simp [hne]
      · simp only [if_neg hk]
        exact ih

theorem keys_dictApp {κ α : Type} [DecidableEq κ] (k : κ) (x : α) :
    ∀ d : List (κ × List α),
      (dictApp k x d).map Prod.fst =
        if k ∈ d.map Prod.fst then d.map Prod.fst
        else d.map Prod.fst ++ [k] := by
  intro d
  induction d with
  | nil => simp [dictApp]
  | cons kv d ih =>
    obtain ⟨k0, xs⟩ := kv
    simp only [dictApp]
    by_cases h0 : k = k0
    · subst h0
      simp
    · rw [if_neg h0]
      simp only [List.map_cons, ih]
      have : (k ∈ k0 :: d.map Prod.fst) ↔ (k ∈ d.map Prod.fst) := by
        simp [List.mem_cons, h0]
      by_cases hm : k ∈ d.map Prod.fst
      · simp [hm, this]
      · simp [hm, h0]

theorem nodup_keys_dictApp {κ α : Type} [DecidableEq κ] (k : κ) (x : α)
    (d : List (κ × List α)) (h : (d.map Prod.fst).Nodup) :
    ((dictApp k x d).map Prod.fst).Nodup := by
  rw [keys_dictApp]
  split
  · exact h
  · simp only [List.nodup_append]
    exact ⟨h, List.nodup_singleton k, by simpa using ‹¬ k ∈ d.map Prod.fst›⟩

theorem lookupD_eq_of_mem_nodup {κ α : Type} [DecidableEq κ] :
    ∀ (d : List (κ × List α)) (k : κ) (g : List α),
      (d.map Prod.fst).Nodup → (k, g) ∈ d → lookupD k d = g := by
  intro d
  induction d with
  | nil => intro k g _ h; simp at h
  | cons kv d ih =>
    intro k g hnd hm
    obtain ⟨k0, xs⟩ := kv
    simp only [List.map_cons, List.nodup_cons] at hnd
    rcases List.mem_cons.mp hm with heq | htail
    · obtain ⟨h1, h2⟩ := Prod.mk.injEq .. ▸ heq
      subst h1; subst h2
      simp [lookupD]
    · have hk : k ≠ k0 := by
        intro h
        subst h
        exact hnd.1 (List.mem_map.mpr ⟨(k, g), htail, rfl⟩)
      simp only [lookupD, if_neg hk]
      exact ih k g hnd.2 htail

theorem lookupD_mem {κ α : Type} [DecidableEq κ] :
    ∀ (d : List (κ × List α)) (k : κ),
      lookupD k d ≠ [] → (k, lookupD k d) ∈ d := by
  intro d
  induction d with
  | nil => intro k h; simp [lookupD] at h
  | cons kv d ih =>
    intro k h
    obtain ⟨k0, xs⟩ := kv
    by_cases hk : k = k0
    · subst hk
      simp only [lookupD, if_pos rfl] at h ⊢
      exact List.mem_cons_self _ _
    · simp only [lookupD, if_neg hk] at h ⊢
      exact List.mem_cons_of_mem _ (ih k h)

theorem lookup1_dictSet {κ α : Type} [DecidableEq κ] (k k' : κ) (v : α) :
    ∀ d : List (κ × α),
      lookup1 k (dictSet k' v d) =
        if k = k' then some v else lookup1 k d := by
  intro d
  induction d with
  | nil =>
    simp only [dictSet, lookup1]
  | cons kv d ih =>
    obtain ⟨k0, v0⟩ := kv
    simp only [dictSet]
    by_cases h0 : k' = k0
    · subst h0
      simp only [if_pos rfl, lookup1]
      by_cases hk : k = k' <;> simp [hk]
    · rw [if_neg h0]
      simp only [lookup1]
      by_cases hk : k = k0
      · subst hk
        have hne : ¬ k = k' := fun h => h0 h.symm
        simp [hne]
      · simp only [if_neg hk]
        exact ih

/- ----------------------------------------------------------------- -/
/- The grouping folds of the three tiers.                             -/
/- ----------------------------------------------------------------- -/

theorem lookupD_groupFold {κ : Type} [DecidableEq κ] (key : String → κ) :
    ∀ (m : List String) (d : List (κ × List String)) (k : κ),
      lookupD k (groupFold key m d) =
        lookupD k d ++ m.filter (fun q => decide (key q = k)) := by
  intro m
  induction m with
  | nil => intro d k; simp [groupFold]
  | cons q m ih =>
    intro d k
    simp only [groupFold, List.foldl_cons]
    rw [show (List.foldl (fun d q => dictApp (key q) q d)
        (dictApp (key q) q d) m) = groupFold key m (dictApp (key q) q d) from rfl]
    rw [ih, lookupD_dictApp]
    simp only [List.filter_cons]
    by_cases hk : key q = k
    · subst hk
      simp
    · have : ¬ k = key q := fun h => hk h.symm
      simp [hk, this]

theorem nodup_keys_groupFold {κ : Type} [DecidableEq κ] (key : String → κ) :
    ∀ (m : List String) (d : List (κ × List String)),
      (d.map Prod.fst).Nodup → ((groupFold key m d).map Prod.fst).Nodup := by
  intro m
  induction m with
  | nil => intro d h; exact h
  | cons q m ih =>
    intro d h
    simp only [groupFold, List.foldl_cons]
    exact ih (dictApp (key q) q d) (nodup_keys_dictApp _ _ _ h)

theorem group_eq_filter {κ : Type} [DecidableEq κ] (key : String → κ)
    (m : List String) (k : κ) (g : List String)
    (hm : (k, g) ∈ groupFold key m []) :
    g = m.filter (fun q => decide (key q = k)) := by
  have hnd : ((groupFold key m []).map Prod.fst).Nodup :=
    nodup_keys_groupFold key m [] (by simp)
  have := lookupD_eq_of_mem_nodup (groupFold key m []) k g hnd hm
  rw [lookupD_groupFold] at this
  simpa [lookupD] using this.symm

theorem group_exists_of_filter_ne {κ : Type} [DecidableEq κ] (key : String → κ)
    (m : List String) (k : κ)
    (h : m.filter (fun q => decide (key q = k)) ≠ []) :
    (k, m.filter (fun q => decide (key q = k))) ∈ groupFold key m [] := by
  have hl : lookupD k (groupFold key m []) =
      m.filter (fun q => decide (key q = k)) := by
    rw [lookupD_groupFold]; simp [lookupD]
  have := lookupD_mem (groupFold key m []) k (by rw [hl]; exact h)
  rwa [hl] at this

/- ----------------------------------------------------------------- -/
/- `resolved` and the tier-1 fold.                                    -/
/- ----------------------------------------------------------------- -/

theorem mem_resolved {fs : FS} {l : List String} {q : String}
    (h : q ∈ resolved fs l) :
    (∃ c, fs.content q = some c) ∧ ∃ p ∈ l, q = fs.real p := by
  rcases List.mem_filterMap.mp h with ⟨p, hp, hf⟩
  cases hc : readC fs p with
  | none => rw [hc] at hf; simp at hf
  | some c =>
    rw [hc] at hf
    simp only [Option.map_some', Option.some.injEq] at hf
    subst hf
    exact ⟨⟨c, hc⟩, p, hp, rfl⟩

theorem sizeFold_eq (fs : FS) :
    ∀ (l : List String) (d : List (Nat × List String)),
      l.foldl (sizeStep fs) d = groupFold (sizeKey fs) (resolved fs l) d := by
  intro l
  induction l with
  | nil => intro d; rfl
  | cons p l ih =>
    intro d
    simp only [List.foldl_cons, sizeStep]
    cases hc : readC fs p with
    | none =>
      rw [ih]
      simp [resolved, List.filterMap_cons, hc, groupFold]
    | some c =>
      rw [ih]
      have hkey : sizeKey fs (fs.real p) = c.length := by
        unfold sizeKey
        rw [show fs.content (fs.real p) = some c from hc]
        rfl
      simp only [resolved, List.filterMap_cons, hc, Option.map_some']
      simp only [groupFold, List.foldl_cons, hkey]

theorem hashFold_eq (fs : FS) :
    ∀ (m : List String) (d : List (Bytes × List String)),
      (∀ q ∈ m, (fs.content q).isSome) →
      m.foldl (hashStep fs) d = groupFold (key1k fs) m d := by
  intro m
  induction m with
  | nil => intro d _; rfl
  | cons q m ih =>
    intro d h
    simp only [List.foldl_cons, hashStep]
    cases hc : fs.content q with
    | none =>
      have := h q (by simp)
      rw [hc] at this
      simp at this
    | some c =>
      have hkey : key1k fs q = c.take 1024 := by
        unfold key1k
        rw [hc]
        rfl
      rw [ih _ (fun x hx => h x (by simp [hx]))]
      simp only [groupFold, List.foldl_cons, hkey]

theorem resolved_filter_content (fs : FS) (c : Bytes) :
    ∀ l : List String,
      (resolved fs l).filter (fun y => decide (fs.content y = some c)) =
        (l.filter (fun p => decide (readC fs p = some c))).map fs.real := by
  intro l
  induction l with
  | nil => simp [resolved]
  | cons p l ih =>
    cases hc : readC fs p with
    | none =>
      have hres : resolved fs (p :: l) = resolved fs l := by
        simp [resolved, List.filterMap_cons, hc]
      rw [hres, List.filter_cons, if_neg (by simp [hc]), ih]
    | some c' =>
      have hcc : fs.content (fs.real p) = some c' := hc
      have hres : resolved fs (p :: l) = fs.real p :: resolved fs l := by
        simp [resolved, List.filterMap_cons, hc]
      rw [hres, List.filter_cons, List.filter_cons]
      by_cases hceq : c' = c
      · subst hceq
        rw [if_pos (by simp [hcc]), if_pos (by simp [hc]), List.map_cons, ih]
      · rw [if_neg (by simp [hcc, hceq]), if_neg (by simp [hc, hceq]), ih]

/- ----------------------------------------------------------------- -/
/- Characterization of the tier-2 loop.                               -/
/- ----------------------------------------------------------------- -/

theorem t2_char (fs : FS) :
    ∀ (gs : List (Nat × List String)) (res0 : List String)
      (d0 : List (Bytes × List String)),
      gs.foldl (tier2Step fs) (res0, d0) =
        (res0 ++
          ((gs.filter (fun g => decide (g.2.length < 2))).map Prod.snd).flatten,
         (((gs.filter (fun g => ! decide (g.2.length < 2))).map Prod.snd).flatten).foldl
           (hashStep fs) d0) := by
  intro gs
  induction gs with
  | nil => intro res0 d0; simp
  | cons g gs ih =>
    intro res0 d0
    rw [List.foldl_cons]
    by_cases hs : g.2.length < 2
    · rw [show tier2Step fs (res0, d0) g = (res0 ++ g.2, d0) by
        simp [tier2Step, hs]]
      rw [ih]
      simp [hs, List.append_assoc]
    · rw [show tier2Step fs (res0, d0) g = (res0, g.2.foldl (hashStep fs) d0) by
        simp [tier2Step, hs]]
      rw [ih]
      simp [hs, List.foldl_append]

theorem filter_flatten (P : String → Bool) :
    ∀ (xs : List (List String)),
      xs.flatten.filter P = (xs.map (fun x => x.filter P)).flatten := by
  intro xs
  induction xs with
  | nil => rfl
  | cons x xs ih => simp [List.filter_append, ih]

theorem flatten_filter_single {κ : Type} [DecidableEq κ] (P : String → Bool)
    (kc : κ) (cs : List String) :
    ∀ gs : List (κ × List String), (gs.map Prod.fst).Nodup →
      (∀ g ∈ gs, g.2.filter P = if g.1 = kc then cs else []) →
      ((gs.map Prod.snd).flatten).filter P =
        if kc ∈ gs.map Prod.fst then cs else [] := by
  intro gs
  induction gs with
  | nil => intro _ _; simp
  | cons g gs ih =>
    intro hnd h
    simp only [List.map_cons, List.nodup_cons] at hnd
    simp only [List.map_cons, List.flatten_cons, List.filter_append]
    rw [h g (by simp)]
    rw [ih hnd.2 (fun g' hg' => h g' (by simp [hg']))]
    by_cases hk : g.1 = kc
    · subst hk
      rw [if_pos rfl, if_neg (fun hmem => hnd.1 hmem),
        if_pos (by simp)]
      simp
    · rw [if_neg hk, List.nil_append]
      by_cases hm : kc ∈ List.map Prod.fst gs
      · rw [if_pos hm, if_pos (by simp [hm])]
      · rw [if_neg hm, if_neg ?_]
        simp only [List.map_cons, List.mem_cons]
        rintro (h' | h')
        · exact hk h'.symm
        · exact hm h'

/- ----------------------------------------------------------------- -/
/- Characterization of the tier-3 loop.                               -/
/- ----------------------------------------------------------------- -/

theorem tier3Inner_eq_none (fs : FS) (res : List String)
    (hf : List (Bytes × String)) (q : String) (hc : fs.content q = none) :
    tier3Inner fs (res, hf) q = (res, hf) := by
  unfold tier3Inner
  rw [hc]

theorem tier3Inner_eq_some (fs : FS) (res : List String)
    (hf : List (Bytes × String)) (q : String) (c' : Bytes)
    (hc : fs.content q = some c') :
    tier3Inner fs (res, hf) q =
      (match lookup1 c' hf with
       | some s => if s = "" then (res ++ [q], dictSet c' q hf) else (res, hf)
       | none => (res ++ [q], dictSet c' q hf)) := by
  unfold tier3Inner
  rw [hc]

theorem tier3Inner_cases (fs : FS) (res : List String)
    (hf : List (Bytes × String)) (q : String) :
    tier3Inner fs (res, hf) q = (res, hf) ∨
    ∃ c', fs.content q = some c' ∧
      tier3Inner fs (res, hf) q = (res ++ [q], dictSet c' q hf) := by
  cases hc : fs.content q with
  | none => left; exact tier3Inner_eq_none fs res hf q hc
  | some c' =>
    rw [tier3Inner_eq_some fs res hf q c' hc]
    cases hl : lookup1 c' hf with
    | none =>
      right
      exact ⟨c', rfl, by simp only [hl]⟩
    | some s =>
      by_cases hs : s = ""
      · right
        refine ⟨c', rfl, ?_⟩
        simp only [hl]
        rw [if_pos hs]
      · left
        simp only [hl]
        rw [if_neg hs]

theorem inner_noP (fs : FS) (c : Bytes) :
    ∀ (g res : List String) (hf : List (Bytes × String)),
      (∀ q ∈ g, fs.content q ≠ some c) →
      ((g.foldl (tier3Inner fs) (res, hf)).1.filter (contentIs fs c) =
        res.filter (contentIs fs c)) ∧
      lookup1 c (g.foldl (tier3Inner fs) (res, hf)).2 = lookup1 c hf := by
  intro g
  induction g with
  | nil => intro res hf _; exact ⟨rfl, rfl⟩
  | cons q g ih =>
    intro res hf h
    have hq : fs.content q ≠ some c := h q (by simp)
    have htail : ∀ x ∈ g, fs.content x ≠ some c := fun x hx => h x (by simp [hx])
    rw [List.foldl_cons]
    rcases tier3Inner_cases fs res hf q with heq | ⟨c', hc', heq⟩
    · rw [heq]; exact ih res hf htail
    · rw [heq]
      have hcc : c' ≠ c := fun h' => hq (by rw [hc', h'])
      have := ih (res ++ [q]) (dictSet c' q hf) htail
      refine ⟨?_, ?_⟩
      · rw [this.1, List.filter_append]
        have : contentIs fs c q = false := by
          simp [contentIs, hc', hcc]
        simp [this]
      · rw [this.2, lookup1_dictSet, if_neg (fun h' => hcc h'.symm)]

theorem inner_blocked (fs : FS) (c : Bytes) :
    ∀ (g res : List String) (hf : List (Bytes × String)),
      (∃ v, lookup1 c hf = some v ∧ v ≠ "") →
      (g.foldl (tier3Inner fs) (res, hf)).1.filter (contentIs fs c) =
        res.filter (contentIs fs c) := by
  intro g
  induction g with
  | nil => intro res hf _; rfl
  | cons q g ih =>
    intro res hf hblock
    obtain ⟨v, hv, hvne⟩ := hblock
    rw [List.foldl_cons]
    cases hcq : fs.content q with
    | none =>
      rw [tier3Inner_eq_none fs res hf q hcq]
      exact ih res hf ⟨v, hv, hvne⟩
    | some c' =>
      by_cases hc' : c' = c
      · subst hc'
        have heq : tier3Inner fs (res, hf) q = (res, hf) := by
          rw [tier3Inner_eq_some fs res hf q c' hcq]
          simp only [hv]
          rw [if_neg hvne]
        rw [heq]
        exact ih res hf ⟨v, hv, hvne⟩
      · rcases tier3Inner_cases fs res hf q with heq | ⟨c'', hc'', heq⟩
        · rw [heq]; exact ih res hf ⟨v, hv, hvne⟩
        · rw [heq]
          have hcc : c'' = c' := by rw [hcq] at hc''; injection hc'' with h''; exact h''.symm
          subst hcc
          rw [ih (res ++ [q]) (dictSet c'' q hf)
            ⟨v, by rw [lookup1_dictSet, if_neg (fun h' => hc' h'.symm)]; exact hv,
             hvne⟩]
          rw [List.filter_append]
          have : contentIs fs c q = false := by simp [contentIs, hcq, hc']
          simp [this]

theorem inner_hit (fs : FS) (c : Bytes) :
    ∀ (g res : List String) (hf : List (Bytes × String)),
      lookup1 c hf = none →
      (∀ q ∈ g, fs.content q = some c → q ≠ "") →
      (g.foldl (tier3Inner fs) (res, hf)).1.filter (contentIs fs c) =
        res.filter (contentIs fs c) ++ (g.filter (contentIs fs c)).take 1 := by
  intro g
  induction g with
  | nil => intro res hf _ _; simp
  | cons q g ih =>
    intro res hf hkey hne
    rw [List.foldl_cons]
    cases hcq : fs.content q with
    | none =>
      rw [tier3Inner_eq_none fs res hf q hcq]
      have hPq : contentIs fs c q = false := by simp [contentIs, hcq]
      rw [ih res hf hkey (fun x hx h => hne x (by simp [hx]) h)]
      rw [List.filter_cons, hPq]
      simp
    | some c' =>
      by_cases hc' : c' = c
      · subst hc'
        have hPq : contentIs fs c' q = true := by simp [contentIs, hcq]
        have heq : tier3Inner fs (res, hf) q = (res ++ [q], dictSet c' q hf) := by
          rw [tier3Inner_eq_some fs res hf q c' hcq]
          simp only [hkey]
        rw [heq]
        have hqne : q ≠ "" := hne q (by simp) hcq
        rw [inner_blocked fs c' g (res ++ [q]) (dictSet c' q hf)
          ⟨q, by rw [lookup1_dictSet, if_pos rfl], hqne⟩]
        rw [List.filter_append, List.filter_cons, hPq]
        simp [List.filter_cons, hPq]
      · have hPq : contentIs fs c q = false := by simp [contentIs, hcq, hc']
        rcases tier3Inner_cases fs res hf q with heq | ⟨c'', hc'', heq⟩
        · rw [heq]
          rw [ih res hf hkey (fun x hx h => hne x (by simp [hx]) h)]
          rw [List.filter_cons, hPq]
          simp
        · rw [heq]
          have hcc : c'' = c' := by rw [hcq] at hc''; injection hc'' with h''; exact h''.symm
          subst hcc
          rw [ih (res ++ [q]) (dictSet c'' q hf)
            (by rw [lookup1_dictSet, if_neg (fun h' => hc' h'.symm)]; exact hkey)
            (fun x hx h => hne x (by simp [hx]) h)]
          rw [List.filter_append, List.filter_cons, hPq]
          have : (res.filter (contentIs fs c) ++ [q].filter (contentIs fs c)) =
              res.filter (contentIs fs c) := by
            simp [List.filter_cons, hPq]
          simp only [List.filter_cons, hPq] at this ⊢
          simp [this]

theorem outer_noP (fs : FS) (c : Bytes) :
    ∀ (gs : List (Bytes × List String)) (res : List String)
      (hf : List (Bytes × String)),
      (∀ g ∈ gs, g.2.filter (contentIs fs c) = []) →
      (gs.foldl (tier3Step fs) (res, hf)).1.filter (contentIs fs c) =
        res.filter (contentIs fs c) := by
  intro gs
  induction gs with
  | nil => intro res hf _; rfl
  | cons g gs ih =>
    intro res hf h
    have hg : g.2.filter (contentIs fs c) = [] := h g (by simp)
    have htail : ∀ g' ∈ gs, g'.2.filter (contentIs fs c) = [] :=
      fun g' hg' => h g' (by simp [hg'])
    rw [List.foldl_cons]
    by_cases hs : g.2.length < 2
    · rw [show tier3Step fs (res, hf) g = (res ++ g.2, hf) by
        simp [tier3Step, hs]]
      rw [ih _ _ htail, List.filter_append, hg, List.append_nil]
    · rw [show tier3Step fs (res, hf) g = g.2.foldl (tier3Inner fs) (res, hf) by
        simp [tier3Step, hs]]
      have hnoP : ∀ q ∈ g.2, fs.content q ≠ some c := by
        intro q hq hcon
        have : contentIs fs c q = true := by simp [contentIs, hcon]
        have := List.filter_eq_nil_iff.mp hg q hq
        simp_all
      have hin := inner_noP fs c g.2 res hf hnoP
      rw [show g.2.foldl (tier3Inner fs) (res, hf) =
          ((g.2.foldl (tier3Inner fs) (res, hf)).1,
           (g.2.foldl (tier3Inner fs) (res, hf)).2) from rfl]
      rw [ih _ _ htail, hin.1]

theorem outer_main (fs : FS) (c : Bytes) (cs : List String) (kc2 : Bytes) :
    ∀ (gs : List (Bytes × List String)) (res : List String)
      (hf : List (Bytes × String)),
      (gs.map Prod.fst).Nodup →
      (∀ g ∈ gs, g.2.filter (contentIs fs c) = if g.1 = kc2 then cs else []) →
      (∀ g ∈ gs, ∀ q ∈ g.2, fs.content q = some c → q ≠ "") →
      lookup1 c hf = none →
      (gs.foldl (tier3Step fs) (res, hf)).1.filter (contentIs fs c) =
        res.filter (contentIs fs c) ++
          (if kc2 ∈ gs.map Prod.fst then cs.take 1 else []) := by
  intro gs
  induction gs with
  | nil => intro res hf _ _ _ _; simp
  | cons g gs ih =>
    intro res hf hnd h hne hkey
    simp only [List.map_cons, List.nodup_cons] at hnd
    rw [List.foldl_cons]
    by_cases hk : g.1 = kc2
    · have htail0 : ∀ g' ∈ gs, g'.2.filter (contentIs fs c) = [] := by
        intro g' hg'
        have := h g' (by simp [hg'])
        rw [if_neg ?_] at this
        · exact this
        · intro hkc
          exact hnd.1 (by
            rw [← hk] at hkc
            exact hkc ▸ List.mem_map.mpr ⟨g', hg', rfl⟩)
      have hgfilter : g.2.filter (contentIs fs c) = cs := by
        rw [h g (by simp), if_pos hk]
      by_cases hs : g.2.length < 2
      · have hcs1 : cs.length ≤ 1 := by
          have := List.length_filter_le (contentIs fs c) g.2
          rw [hgfilter] at this
          omega
        rw [show tier3Step fs (res, hf) g = (res ++ g.2, hf) by
          simp [tier3Step, hs]]
        rw [outer_noP fs c gs _ _ htail0, List.filter_append, hgfilter]
        rw [if_pos (by simp [hk])]
        congr 1
        exact (List.take_of_length_le hcs1).symm
      · rw [show tier3Step fs (res, hf) g = g.2.foldl (tier3Inner fs) (res, hf) by
          simp [tier3Step, hs]]
        rw [show g.2.foldl (tier3Inner fs) (res, hf) =
            ((g.2.foldl (tier3Inner fs) (res, hf)).1,
             (g.2.foldl (tier3Inner fs) (res, hf)).2) from rfl]
        rw [outer_noP fs c gs _ _ htail0]
        rw [inner_hit fs c g.2 res hf hkey (hne g (by simp))]
        rw [hgfilter, if_pos (by simp [hk])]
    · have hgf : g.2.filter (contentIs fs c) = [] := by
        rw [h g (by simp), if_neg hk]
      have hnoP : ∀ q ∈ g.2, fs.content q ≠ some c := by
        intro q hq hcon
        have := List.filter_eq_nil_iff.mp hgf q hq
        simp [contentIs, hcon] at this
      have htail : ∀ g' ∈ gs, g'.2.filter (contentIs fs c) =
          if g'.1 = kc2 then cs else [] := fun g' hg' => h g' (by simp [hg'])
      have hnetail : ∀ g' ∈ gs, ∀ q ∈ g'.2, fs.content q = some c → q ≠ "" :=
        fun g' hg' => hne g' (by simp [hg'])
      have hmemiff : (kc2 ∈ List.map Prod.fst (g :: gs)) ↔
          kc2 ∈ List.map Prod.fst gs := by
        simp only [List.map_cons, List.mem_cons]
        constructor
        · rintro (h' | h')
          · exact absurd h'.symm hk
          · exact h'
        · exact fun h' => Or.inr h'
      by_cases hs : g.2.length < 2
      · rw [show tier3Step fs (res, hf) g = (res ++ g.2, hf) by
          simp [tier3Step, hs]]
        rw [ih _ _ hnd.2 htail hnetail hkey]
        rw [List.filter_append, hgf, List.append_nil]
        by_cases hm : kc2 ∈ List.map Prod.fst gs
        · rw [if_pos hm, if_pos (hmemiff.mpr hm)]
        · rw [if_neg hm, if_neg (fun h' => hm (hmemiff.mp h'))]
      · rw [show tier3Step fs (res, hf) g = g.2.foldl (tier3Inner fs) (res, hf) by
          simp [tier3Step, hs]]
        have hin := inner_noP fs c g.2 res hf hnoP
        rw [show g.2.foldl (tier3Inner fs) (res, hf) =
            ((g.2.foldl (tier3Inner fs) (res, hf)).1,
             (g.2.foldl (tier3Inner fs) (res, hf)).2) from rfl]
        rw [ih _ _ hnd.2 htail hnetail (by rw [hin.2]; exact hkey)]
        rw [hin.1]
        by_cases hm : kc2 ∈ List.map Prod.fst gs
        · rw [if_pos hm, if_pos (hmemiff.mpr hm)]
        · rw [if_neg hm, if_neg (fun h' => hm (hmemiff.mp h'))]

/- ----------------------------------------------------------------- -/
/- The master characterization of `remove_duplicates`.                -/
/- ----------------------------------------------------------------- -/

theorem filter_key_filter {κ : Type} [DecidableEq κ] (P : String → Bool)
    (key : String → κ) (m : List String) (k kc : κ)
    (himp : ∀ y ∈ m, P y = true → key y = kc) :
    (m.filter (fun q => decide (key q = k))).filter P =
      if k = kc then m.filter P else [] := by
  rw [List.filter_comm]
  by_cases hk : k = kc
  · subst hk
    rw [if_pos rfl]
    apply List.filter_eq_self.mpr
    intro y hy
    obtain ⟨hym, hyP⟩ := List.mem_filter.mp hy
    simp [himp y hym hyP]
  · rw [if_neg hk]
    apply List.filter_eq_nil_iff.mpr
    intro y hy
    obtain ⟨hym, hyP⟩ := List.mem_filter.mp hy
    have hkey := himp y hym hyP
    simp only [decide_eq_true_eq, hkey]
    exact fun h => hk h.symm

theorem mem_eq_of_nodup_keys {κ α : Type} [DecidableEq κ]
    (d : List (κ × List α)) (hnd : (d.map Prod.fst).Nodup)
    {k : κ} {g g' : List α} (h1 : (k, g) ∈ d) (h2 : (k, g') ∈ d) : g = g' := by
  have e1 := lookupD_eq_of_mem_nodup d k g hnd h1
  have e2 := lookupD_eq_of_mem_nodup d k g' hnd h2
  rw [e1] at e2
  exact e2

theorem remove_duplicates_eq (fs : FS) (l : List String) :
    remove_duplicates fs l =
      (((l.foldl (sizeStep fs) []).foldl (tier2Step fs) ([], [])).2.foldl
        (tier3Step fs)
        (((l.foldl (sizeStep fs) []).foldl (tier2Step fs) ([], [])).1, [])).1 :=
  rfl

/-- The content-level behaviour of the three-tier deduplication: for
every content value `c`, the survivors with content `c` are exactly the
first-seen accessible input file with that content (its realpath);
formally, filtering the result by content `c` equals taking the first
element of the correspondingly filtered resolved input. -/
theorem master_filter (fs : FS) (l : List String) (c : Bytes)
    (hne : ∀ q ∈ resolved fs l, q ≠ "") :
    (remove_duplicates fs l).filter (contentIs fs c) =
      ((resolved fs l).filter (contentIs fs c)).take 1 := by
  have hPcontent : ∀ y, contentIs fs c y = true → fs.content y = some c := by
    intro y hy
    simpa [contentIs] using hy
  have hPsize : ∀ y ∈ resolved fs l, contentIs fs c y = true →
      sizeKey fs y = c.length := by
    intro y _ hy
    simp [sizeKey, hPcontent y hy]
  have hP1k : ∀ y, contentIs fs c y = true → key1k fs y = c.take 1024 := by
    intro y hy
    simp [key1k, hPcontent y hy]
  rw [remove_duplicates_eq fs l, sizeFold_eq fs l [], t2_char fs]
  dsimp only
  simp only [List.nil_append]
  set R := resolved fs l with hRdef
  set bySize := groupFold (sizeKey fs) R [] with hbySizedef
  set smalls := bySize.filter (fun g => decide (g.2.length < 2)) with hsmallsdef
  set bigs := bySize.filter (fun g => ! decide (g.2.length < 2)) with hbigsdef
  set res1 := (smalls.map Prod.snd).flatten with hres1def
  set B := (bigs.map Prod.snd).flatten with hBdef
  set cs := R.filter (contentIs fs c) with hcsdef
  have hnd : (bySize.map Prod.fst).Nodup :=
    nodup_keys_groupFold _ _ [] (by simp)
  have hgP : ∀ g ∈ bySize, g.2.filter (contentIs fs c) =
      if g.1 = c.length then cs else [] := by
    intro g hg
    have hgf := group_eq_filter (sizeKey fs) R g.1 g.2
      (by rw [Prod.mk.eta]; exact hg)
    rw [hgf, filter_key_filter (contentIs fs c) (sizeKey fs) R
      g.1 c.length hPsize]
  have hndS : (smalls.map Prod.fst).Nodup :=
    List.Nodup.sublist (List.Sublist.map _ (List.filter_sublist _)) hnd
  have hndB : (bigs.map Prod.fst).Nodup :=
    List.Nodup.sublist (List.Sublist.map _ (List.filter_sublist _)) hnd
  have hres1P : res1.filter (contentIs fs c) =
      if c.length ∈ smalls.map Prod.fst then cs else [] :=
    flatten_filter_single (contentIs fs c) c.length cs smalls hndS
      (fun g hg => hgP g (List.mem_of_mem_filter hg))
  have hBP : B.filter (contentIs fs c) =
      if c.length ∈ bigs.map Prod.fst then cs else [] :=
    flatten_filter_single (contentIs fs c) c.length cs bigs hndB
      (fun g hg => hgP g (List.mem_of_mem_filter hg))
  have hBacc : ∀ q ∈ B, q ∈ R := by
    intro q hq
    rcases List.mem_flatten.mp hq with ⟨x, hx, hqx⟩
    rcases List.mem_map.mp hx with ⟨g, hg, rfl⟩
    have hgby := List.mem_of_mem_filter hg
    have hgf := group_eq_filter (sizeKey fs) R g.1 g.2
      (by rw [Prod.mk.eta]; exact hgby)
    rw [hgf] at hqx
    exact List.mem_of_mem_filter hqx
  have hBsome : ∀ q ∈ B, (fs.content q).isSome := by
    intro q hq
    rcases (mem_resolved (hBacc q hq)).1 with ⟨cq, hcq⟩
    simp [hcq]
  rw [hashFold_eq fs B [] hBsome]
  set on1k := groupFold (key1k fs) B [] with hon1kdef
  have hnd2 : (on1k.map Prod.fst).Nodup := nodup_keys_groupFold _ _ [] (by simp)
  have hgP2 : ∀ g ∈ on1k, g.2.filter (contentIs fs c) =
      if g.1 = c.take 1024 then B.filter (contentIs fs c) else [] := by
    intro g hg
    have hgf := group_eq_filter (key1k fs) B g.1 g.2
      (by rw [Prod.mk.eta]; exact hg)
    rw [hgf, filter_key_filter (contentIs fs c) (key1k fs) B g.1 (c.take 1024)
      (fun y _ hy => hP1k y hy)]
  by_cases hcs : cs = []
  · rw [hcs] at hres1P hBP
    simp only [ite_self] at hres1P hBP
    simp only [hBP, ite_self] at hgP2
    rw [outer_noP fs c on1k res1 [] hgP2]
    rw [hres1P, hcs]
    rfl
  · have hkcne : R.filter (fun q => decide (sizeKey fs q = c.length)) ≠ [] := by
      intro hnil
      rcases List.exists_mem_of_ne_nil _ hcs with ⟨y, hy⟩
      obtain ⟨hyR, hyP⟩ := List.mem_filter.mp hy
      have hymem : y ∈ R.filter (fun q => decide (sizeKey fs q = c.length)) :=
        List.mem_filter.mpr ⟨hyR, by simp [hPsize y hyR hyP]⟩
      rw [hnil] at hymem
      simp at hymem
    have hkcgrp : (c.length, R.filter (fun q => decide (sizeKey fs q = c.length)))
        ∈ bySize :=
      group_exists_of_filter_ne (sizeKey fs) R c.length hkcne
    have hkcfilter : (R.filter
        (fun q => decide (sizeKey fs q = c.length))).filter (contentIs fs c) =
        cs := by
      rw [filter_key_filter (contentIs fs c) (sizeKey fs) R
        c.length c.length hPsize, if_pos rfl]
    by_cases hsml : (R.filter (fun q => decide (sizeKey fs q = c.length))).length < 2
    · -- the `c`-size group is size-unique: accepted at tier 1
      have hmemS : (c.length, R.filter (fun q => decide (sizeKey fs q = c.length)))
          ∈ smalls :=
        List.mem_filter.mpr ⟨hkcgrp, by simp [hsml]⟩
      have hkeyS : c.length ∈ smalls.map Prod.fst :=
        List.mem_map.mpr ⟨_, hmemS, rfl⟩
      have hkeyB : ¬ c.length ∈ bigs.map Prod.fst := by
        intro hmem
        rcases List.mem_map.mp hmem with ⟨g', hg', hfst⟩
        have hg'by := List.mem_of_mem_filter hg'
        have hgeq : g'.2 = R.filter (fun q => decide (sizeKey fs q = c.length)) :=
          mem_eq_of_nodup_keys _ hnd
            (by rw [← hfst, Prod.mk.eta]; exact hg'by) hkcgrp
        have hbig := (List.mem_filter.mp hg').2
        rw [hgeq] at hbig
        simp [hsml] at hbig
      simp only [hBP, if_neg hkeyB, ite_self] at hgP2
      rw [outer_noP fs c on1k res1 [] hgP2]
      rw [hres1P, if_pos hkeyS]
      have hlen : cs.length ≤ 1 := by
        have h1 := List.length_filter_le (contentIs fs c)
          (R.filter (fun q => decide (sizeKey fs q = c.length)))
        rw [hkcfilter] at h1
        omega
      rw [List.take_of_length_le hlen]
    · -- the `c`-size group collides: it goes through tiers 2 and 3
      have hmemB : (c.length, R.filter (fun q => decide (sizeKey fs q = c.length)))
          ∈ bigs :=
        List.mem_filter.mpr ⟨hkcgrp, by simp [hsml]⟩
      have hkeyB : c.length ∈ bigs.map Prod.fst :=
        List.mem_map.mpr ⟨_, hmemB, rfl⟩
      have hkeyS : ¬ c.length ∈ smalls.map Prod.fst := by
        intro hmem
        rcases List.mem_map.mp hmem with ⟨g', hg', hfst⟩
        have hg'by := List.mem_of_mem_filter hg'
        have hgeq : g'.2 = R.filter (fun q => decide (sizeKey fs q = c.length)) :=
          mem_eq_of_nodup_keys _ hnd
            (by rw [← hfst, Prod.mk.eta]; exact hg'by) hkcgrp
        have hsmall := (List.mem_filter.mp hg').2
        rw [hgeq] at hsmall
        simp [hsml] at hsmall
      simp only [hBP, if_pos hkeyB] at hgP2
      have hne2mem : ∀ g ∈ on1k, ∀ q ∈ g.2, fs.content q = some c → q ≠ "" := by
        intro g hg q hq _
        have hgf := group_eq_filter (key1k fs) B g.1 g.2
          (by rw [Prod.mk.eta]; exact hg)
        rw [hgf] at hq
        exact hne q (hBacc q (List.mem_of_mem_filter hq))
      have hkey2mem : c.take 1024 ∈ on1k.map Prod.fst := by
        rcases List.exists_mem_of_ne_nil _ hcs with ⟨y, hy⟩
        obtain ⟨hyR, hyP⟩ := List.mem_filter.mp hy
        have hyB : y ∈ B := by
          have hyg : y ∈ R.filter (fun q => decide (sizeKey fs q = c.length)) :=
            List.mem_filter.mpr ⟨hyR, by simp [hPsize y hyR hyP]⟩
          exact List.mem_flatten.mpr
            ⟨R.filter (fun q => decide (sizeKey fs q = c.length)),
             List.mem_map.mpr ⟨_, hmemB, rfl⟩, hyg⟩
        have hyfilter : y ∈ B.filter
            (fun q => decide (key1k fs q = c.take 1024)) :=
          List.mem_filter.mpr ⟨hyB, by simp [hP1k y hyP]⟩
        have hne2 : B.filter (fun q => decide (key1k fs q = c.take 1024)) ≠ [] := by
          intro hnil
          rw [hnil] at hyfilter
          simp at hyfilter
        exact List.mem_map.mpr
          ⟨_, group_exists_of_filter_ne (key1k fs) B (c.take 1024) hne2, rfl⟩
      rw [outer_main fs c cs (c.take 1024) on1k res1 [] hnd2 hgP2 hne2mem
        (show lookup1 c ([] : List (Bytes × String)) = none from rfl)]
      rw [hres1P, if_neg hkeyS, List.nil_append, if_pos hkey2mem]

/- ----------------------------------------------------------------- -/
/- The result is a subset of the resolved input.                      -/
/- ----------------------------------------------------------------- -/

theorem inner_sub (fs : FS) :
    ∀ (g res : List String) (hf : List (Bytes × String)) (y : String),
      y ∈ (g.foldl (tier3Inner fs) (res, hf)).1 → y ∈ res ∨ y ∈ g := by
  intro g
  induction g with
  | nil => intro res hf y hy; exact Or.inl hy
  | cons q g ih =>
    intro res hf y hy
    rw [List.foldl_cons] at hy
    rcases tier3Inner_cases fs res hf q with heq | ⟨c', _, heq⟩
    · rw [heq] at hy
      rcases ih res hf y hy with h | h
      · exact Or.inl h
      · exact Or.inr (by simp [h])
    · rw [heq] at hy
      rcases ih (res ++ [q]) (dictSet c' q hf) y hy with h | h
      · rcases List.mem_append.mp h with h' | h'
        · exact Or.inl h'
        · simp only [List.mem_singleton] at h'
          exact Or.inr (by simp [h'])
      · exact Or.inr (by simp [h])

theorem t3_sub (fs : FS) :
    ∀ (gs : List (Bytes × List String)) (res : List String)
      (hf : List (Bytes × String)) (y : String),
      y ∈ (gs.foldl (tier3Step fs) (res, hf)).1 →
      y ∈ res ∨ ∃ g ∈ gs, y ∈ g.2 := by
  intro gs
  induction gs with
  | nil => intro res hf y hy; exact Or.inl hy
  | cons g gs ih =>
    intro res hf y hy
    rw [List.foldl_cons] at hy
    by_cases hs : g.2.length < 2
    · rw [show tier3Step fs (res, hf) g = (res ++ g.2, hf) by
        simp [tier3Step, hs]] at hy
      rcases ih _ _ y hy with h | ⟨g', hg', hyg'⟩
      · rcases List.mem_append.mp h with h' | h'
        · exact Or.inl h'
        · exact Or.inr ⟨g, by simp, h'⟩
      · exact Or.inr ⟨g', by simp [hg'], hyg'⟩
    · rw [show tier3Step fs (res, hf) g = g.2.foldl (tier3Inner fs) (res, hf) by
        simp [tier3Step, hs]] at hy
      rw [show g.2.foldl (tier3Inner fs) (res, hf) =
          ((g.2.foldl (tier3Inner fs) (res, hf)).1,
           (g.2.foldl (tier3Inner fs) (res, hf)).2) from rfl] at hy
      rcases ih _ _ y hy with h | ⟨g', hg', hyg'⟩
      · rcases inner_sub fs g.2 res hf y h with h' | h'
        · exact Or.inl h'
        · exact Or.inr ⟨g, by simp, h'⟩
      · exact Or.inr ⟨g', by simp [hg'], hyg'⟩

theorem flatten_groups_sub {κ : Type} [DecidableEq κ] (key : String → κ)
    (m : List String) (pred : κ × List String → Bool) :
    ∀ q ∈ (((groupFold key m []).filter pred).map Prod.snd).flatten, q ∈ m := by
  intro q hq
  rcases List.mem_flatten.mp hq with ⟨x, hx, hqx⟩
  rcases List.mem_map.mp hx with ⟨g, hg, rfl⟩
  have hgf := group_eq_filter key m g.1 g.2
    (by rw [Prod.mk.eta]; exact List.mem_of_mem_filter hg)
  rw [hgf] at hqx
  exact List.mem_of_mem_filter hqx

theorem group_member_sub {κ : Type} [DecidableEq κ] (key : String → κ)
    (m : List String) {k : κ} {g : List String}
    (hg : (k, g) ∈ groupFold key m []) : ∀ q ∈ g, q ∈ m := by
  intro q hq
  rw [group_eq_filter key m k g hg] at hq
  exact List.mem_of_mem_filter hq

theorem remove_duplicates_sub (fs : FS) (l : List String) :
    ∀ y ∈ remove_duplicates fs l, y ∈ resolved fs l := by
  intro y hy
  rw [remove_duplicates_eq fs l, sizeFold_eq fs l [], t2_char fs] at hy
  dsimp only at hy
  simp only [List.nil_append] at hy
  have hBsub : ∀ q ∈ (((groupFold (sizeKey fs) (resolved fs l) []).filter
      (fun g => ! decide (g.2.length < 2))).map Prod.snd).flatten,
      q ∈ resolved fs l :=
    flatten_groups_sub (sizeKey fs) (resolved fs l) _
  have hBsome : ∀ q ∈ (((groupFold (sizeKey fs) (resolved fs l) []).filter
      (fun g => ! decide (g.2.length < 2))).map Prod.snd).flatten,
      (fs.content q).isSome := by
    intro q hq
    rcases (mem_resolved (hBsub q hq)).1 with ⟨cq, hcq⟩
    simp [hcq]
  rw [hashFold_eq fs _ [] hBsome] at hy
  rcases t3_sub fs _ _ _ y hy with h | ⟨g, hg, hyg⟩
  · exact flatten_groups_sub (sizeKey fs) (resolved fs l) _ y h
  · have := group_member_sub (key1k fs) _ (by rw [Prod.mk.eta]; exact hg) y hyg
    exact hBsub y this

/- ----------------------------------------------------------------- -/
/- Singleton groups (all keys distinct).                              -/
/- ----------------------------------------------------------------- -/

theorem dictApp_fresh {κ α : Type} [DecidableEq κ] (k : κ) (x : α) :
    ∀ d : List (κ × List α), ¬ k ∈ d.map Prod.fst →
      dictApp k x d = d ++ [(k, [x])] := by
  intro d
  induction d with
  | nil => intro _; rfl
  | cons kv d ih =>
    intro h
    obtain ⟨k0, xs⟩ := kv
    simp only [List.map_cons, List.mem_cons] at h
    push_neg at h
    simp only [dictApp, if_neg h.1]
    rw [ih h.2]
    rfl

theorem groupFold_singletons {κ : Type} [DecidableEq κ] (key : String → κ) :
    ∀ (m : List String) (d : List (κ × List String)),
      (m.map key).Nodup → (∀ q ∈ m, ¬ key q ∈ d.map Prod.fst) →
      groupFold key m d = d ++ m.map (fun q => (key q, [q])) := by
  intro m
  induction m with
  | nil => intro d _ _; simp [groupFold]
  | cons q m ih =>
    intro d hnd hfresh
    simp only [List.map_cons, List.nodup_cons] at hnd
    simp only [groupFold, List.foldl_cons]
    rw [show List.foldl (fun d q => dictApp (key q) q d)
        (dictApp (key q) q d) m = groupFold key m (dictApp (key q) q d) from rfl]
    rw [dictApp_fresh (key q) q d (hfresh q (by simp))]
    rw [ih (d ++ [(key q, [q])]) hnd.2 ?_]
    · simp [List.append_assoc]
    · intro x hx
      simp only [List.map_append, List.mem_append]
      push_neg
      refine ⟨hfresh x (by simp [hx]), ?_⟩
      simp only [List.map_cons, List.map_nil, List.mem_singleton]
      intro hxy
      exact hnd.1 (hxy ▸ List.mem_map.mpr ⟨x, hx, rfl⟩)

theorem flatten_map_singleton :
    ∀ m : List String, (m.map (fun q => [q])).flatten = m := by
  intro m
  induction m with
  | nil => rfl
  | cons q m ih => simp [ih]

theorem filterMap_self {α : Type} (f : α → Option α) :
    ∀ l : List α, (∀ x ∈ l, f x = some x) → l.filterMap f = l := by
  intro l
  induction l with
  | nil => intro _; rfl
  | cons a l ih =>
    intro h
    rw [List.filterMap_cons, h a (by simp), ih (fun x hx => h x (by simp [hx]))]

theorem find?_eq_head_filter (p : String → Bool) :
    ∀ l : List String, l.find? p = (l.filter p).head? := by
  intro l
  induction l with
  | nil => rfl
  | cons a l ih =>
    by_cases h : p a
    · rw [List.find?_cons_of_pos _ h, List.filter_cons, if_pos h]
      rfl
    · rw [List.find?_cons_of_neg _ h, List.filter_cons, if_neg h, ih]

/-- C1: whenever two or more input files are byte-identical (content
`c`), the deduplicated result contains exactly one file with that
content, and it is the (realpath of the) file appearing earliest in the
input iteration order — first-seen wins. -/
theorem dedupe_first_seen_wins (fs : FS) (l : List String) (c : Bytes)
    (hne : ∀ p ∈ l, fs.real p ≠ "")
    (h2 : 2 ≤ (l.filter (fun p => decide (readC fs p = some c))).length) :
    ∃ p₀, l.find? (fun p => decide (readC fs p = some c)) = some p₀ ∧
      (remove_duplicates fs l).filter (contentIs fs c) = [fs.real p₀] := by
  have hneR : ∀ q ∈ resolved fs l, q ≠ "" := by
    intro q hq
    rcases (mem_resolved hq).2 with ⟨p, hp, rfl⟩
    exact hne p hp
  have hmf := master_filter fs l c hneR
  have hrfc : (resolved fs l).filter (contentIs fs c) =
      (l.filter (fun p => decide (readC fs p = some c))).map fs.real :=
    resolved_filter_content fs c l
  obtain ⟨p₀, l', hsplit⟩ : ∃ p₀ l',
      l.filter (fun p => decide (readC fs p = some c)) = p₀ :: l' := by
    cases hf : l.filter (fun p => decide (readC fs p = some c)) with
    | nil => rw [hf] at h2; simp at h2
    | cons a as => exact ⟨a, as, rfl⟩
  refine ⟨p₀, ?_, ?_⟩
  · rw [find?_eq_head_filter, hsplit]
    rfl
  · rw [hmf, hrfc, hsplit]
    rfl

/-- Witness for C1: `fsTwoDup` has the byte-identical files `"a"` and
`"b"`; of the input `["c", "a", "b"]` only the earlier `"a"`
survives. -/
theorem dedupe_first_seen_wins_witness :
    ∃ p₀, ["c", "a", "b"].find?
        (fun p => decide (readC fsTwoDup p = some [1, 2])) = some p₀ ∧
      (remove_duplicates fsTwoDup ["c", "a", "b"]).filter
        (contentIs fsTwoDup [1, 2]) = [fsTwoDup.real p₀] :=
  dedupe_first_seen_wins fsTwoDup ["c", "a", "b"] [1, 2] (by decide) (by decide)

/-- C2: no false-positive deduplication.  If all (accessible) input
files have pairwise distinct sizes, the result is exactly the resolved
input — every file is returned, each from its singleton tier-1 size
group, with no content hashed.  And for two files of identical size but
different first 1024 bytes, both are retained (they separate at
tier 2). -/
theorem dedupe_no_false_positive (fs : FS) :
    (∀ l : List String, ((resolved fs l).map (sizeKey fs)).Pairwise
        (fun a b => a ≠ b) →
        remove_duplicates fs l = resolved fs l) ∧
    (∀ (p q : String) (cp cq : Bytes), readC fs p = some cp →
        readC fs q = some cq → cp.length = cq.length →
        cp.take 1024 ≠ cq.take 1024 →
        remove_duplicates fs [p, q] = [fs.real p, fs.real q]) := by
  constructor
  · intro l hPW
    have hnd : ((resolved fs l).map (sizeKey fs)).Nodup := hPW
    rw [remove_duplicates_eq fs l, sizeFold_eq fs l []]
    rw [groupFold_singletons (sizeKey fs) (resolved fs l) [] hnd (by simp)]
    rw [List.nil_append, t2_char fs]
    rw [List.filter_eq_self.mpr (by
      intro g hg
      rcases List.mem_map.mp hg with ⟨q, _, rfl⟩
      simp)]
    rw [List.filter_eq_nil_iff.mpr (by
      intro g hg
      rcases List.mem_map.mp hg with ⟨q, _, rfl⟩
      simp)]
    dsimp only
    simp only [List.map_nil, List.flatten_nil, List.foldl_nil, List.map_map]
    rw [show ((resolved fs l).map
        (Prod.snd ∘ fun q => (sizeKey fs q, [q]))).flatten = resolved fs l from
      flatten_map_singleton (resolved fs l)]
    simp
  · intro p q cp cq hp hq hlen htk
    have hp' : fs.content (fs.real p) = some cp := hp
    have hq' : fs.content (fs.real q) = some cq := hq
    rw [remove_duplicates_eq fs]
    have h1 : [p, q].foldl (sizeStep fs) [] =
        [(cq.length, [fs.real p, fs.real q])] := by
      simp only [List.foldl_cons, List.foldl_nil, sizeStep, hp, hq]
      simp [dictApp, hlen]
    rw [h1]
    have h2 : [(cq.length, [fs.real p, fs.real q])].foldl (tier2Step fs)
        ([], []) =
        (([] : List String), [fs.real p, fs.real q].foldl (hashStep fs) []) := by
      simp [tier2Step]
    rw [h2]
    have h3 : [fs.real p, fs.real q].foldl (hashStep fs) [] =
        [(cp.take 1024, [fs.real p]), (cq.take 1024, [fs.real q])] := by
      simp only [List.foldl_cons, List.foldl_nil, hashStep, hp', hq']
      simp only [dictApp]
      rw [if_neg (fun h : cq.take 1024 = cp.take 1024 => htk h.symm)]
    rw [h3]
    dsimp only
    have h4 : tier3Step fs (([] : List String), ([] : List (Bytes × String)))
        (cp.take 1024, [fs.real p]) = ([fs.real p], []) := by
      simp [tier3Step]
    have h5 : tier3Step fs ([fs.real p], ([] : List (Bytes × String)))
        (cq.take 1024, [fs.real q]) = ([fs.real p, fs.real q], []) := by
      simp [tier3Step]
    rw [List.foldl_cons, h4, List.foldl_cons, h5, List.foldl_nil]

/-- Witness for C2: `fsTwoDup` on two distinct-size files, and
`fsTwoDiff` on two equal-size files differing in their first bytes. -/
theorem dedupe_no_false_positive_witness :
    remove_duplicates fsTwoDup ["c", "a"] = resolved fsTwoDup ["c", "a"] ∧
    remove_duplicates fsTwoDiff ["a", "b"] =
      [fsTwoDiff.real "a", fsTwoDiff.real "b"] :=
  ⟨(dedupe_no_false_positive fsTwoDup).1 ["c", "a"] (by decide),
   (dedupe_no_false_positive fsTwoDiff).2 "a" "b" [1, 2] [3, 2]
     (by decide) (by decide) (by decide) (by decide)⟩

/-- C5 counterexample: access errors do surface past the comment
scanner.  For a file system where the file `"a"` has vanished, the
Deduplicator absorbs the error and returns the empty survivors list,
but `extract_comment_java` raises (modelled by `none`): the uncaught
`OSError` from `os.path.getsize` at line 138 propagates to the caller
instead of the file being dropped. -/
theorem error_absorption_cex :
    remove_duplicates fsGone ["a"] = [] ∧
    extract_comment_java fsGone ["a"] = none :=
  ⟨by decide, by decide⟩

/-- C5 (amended): the Deduplicator absorbs every per-file access error —
it never raises and every returned path is accessible; the
CommentScanner absorbs only decode errors: it succeeds exactly when
every listed file is accessible, and an access error during scanning
propagates to the caller. -/
theorem error_absorption_amended :
    (∀ (fs : FS) (l : List String), ∀ y ∈ remove_duplicates fs l,
        (fs.content y).isSome) ∧
    (∀ (fs : FS) (l : List String),
        (extract_comment_java fs l).isSome ↔ ∀ p ∈ l, (fs.content p).isSome) := by
  constructor
  · intro fs l y hy
    rcases (mem_resolved (remove_duplicates_sub fs l y hy)).1 with ⟨cy, hcy⟩
    simp [hcy]
  · intro fs l
    induction l with
    | nil => simp [extract_comment_java]
    | cons p ps ih =>
      cases hc : fs.content p with
      | none =>
        rw [show extract_comment_java fs (p :: ps) = none by
          (conv_lhs => unfold extract_comment_java); simp only [hc]]
        simp [hc]
      | some bs =>
        rw [show extract_comment_java fs (p :: ps) =
            (extract_comment_java fs ps).map
              (fun rest => (p, ⟨bs.length, scanText (readText bs)⟩) :: rest) by
          (conv_lhs => unfold extract_comment_java); simp only [hc]]
        simp [hc, ih]

/-- Witness for C5 (amended) at concrete inputs. -/
theorem error_absorption_witness :
    (fsTwoDup.content "c").isSome ∧
    ((extract_comment_java fsGone ["a"]).isSome ↔
      ∀ p ∈ ["a"], (fsGone.content p).isSome) :=
  ⟨error_absorption_amended.1 fsTwoDup ["c", "a", "b"] "c" (by decide),
   error_absorption_amended.2 fsGone ["a"]⟩

/-- C9: deduplication is idempotent — applying `remove_duplicates` to
its own output yields the same result set (the hypotheses state that
`os.path.realpath` never returns the empty string and is idempotent on
the inputs, both true of the real function). -/
theorem dedupe_idempotent (fs : FS) (l : List String)
    (hne : ∀ p ∈ l, fs.real p ≠ "")
    (hidem : ∀ p ∈ l, fs.real (fs.real p) = fs.real p) :
    ∀ y, y ∈ remove_duplicates fs (remove_duplicates fs l) ↔
      y ∈ remove_duplicates fs l := by
  have hneR : ∀ q ∈ resolved fs l, q ≠ "" := by
    intro q hq
    rcases (mem_resolved hq).2 with ⟨p, hp, rfl⟩
    exact hne p hp
  have hreal : ∀ q ∈ resolved fs l, fs.real q = q := by
    intro q hq
    rcases (mem_resolved hq).2 with ⟨p, hp, rfl⟩
    exact hidem p hp
  have hacc : ∀ q ∈ resolved fs l, ∃ cq, fs.content q = some cq :=
    fun q hq => (mem_resolved hq).1
  have hsub := remove_duplicates_sub fs l
  have hres0 : resolved fs (remove_duplicates fs l) = remove_duplicates fs l := by
    apply filterMap_self
    intro z hz
    have hzR := hsub z hz
    rcases hacc z hzR with ⟨cz, hcz⟩
    rw [show readC fs z = fs.content (fs.real z) from rfl, hreal z hzR, hcz]
    simp [hreal z hzR]
  have hneR0 : ∀ q ∈ resolved fs (remove_duplicates fs l), q ≠ "" := by
    rw [hres0]
    intro q hq
    exact hneR q (hsub q hq)
  intro y
  constructor
  · intro hy
    have := remove_duplicates_sub fs (remove_duplicates fs l) y hy
    rwa [hres0] at this
  · intro hy
    have hyR := hsub y hy
    rcases hacc y hyR with ⟨cy, hcy⟩
    have hyf : y ∈ (remove_duplicates fs l).filter (contentIs fs cy) :=
      List.mem_filter.mpr ⟨hy, by simp [contentIs, hcy]⟩
    have hm1 := master_filter fs l cy hneR
    have hlen : ((remove_duplicates fs l).filter (contentIs fs cy)).length ≤ 1 := by
      rw [hm1]
      exact List.length_take_le 1 _
    have hsingle : (remove_duplicates fs l).filter (contentIs fs cy) = [y] := by
      cases hfl : (remove_duplicates fs l).filter (contentIs fs cy) with
      | nil => rw [hfl] at hyf; simp at hyf
      | cons a as =>
        rw [hfl] at hyf hlen
        have has : as = [] := by
          simp only [List.length_cons] at hlen
          exact List.length_eq_zero.mp (by omega)
        subst has
        simp only [List.mem_singleton] at hyf
        rw [hyf]
    have hm2 := master_filter fs (remove_duplicates fs l) cy hneR0
    rw [hres0, hsingle] at hm2
    have : y ∈ (remove_duplicates fs (remove_duplicates fs l)).filter
        (contentIs fs cy) := by
      rw [hm2]
      simp
    exact List.mem_of_mem_filter this

/-- Witness for C9 at a concrete file system and input list. -/
theorem dedupe_idempotent_witness :
    "a" ∈ remove_duplicates fsTwoDup (remove_duplicates fsTwoDup ["c", "a", "b"])
      ↔ "a" ∈ remove_duplicates fsTwoDup ["c", "a", "b"] :=
  dedupe_idempotent fsTwoDup ["c", "a", "b"] (by decide) (by decide) "a"

end CommentAnalysis
